import Mathlib

/-!
Verification of the CataTetris hex falling-tile engine.

The definitions below are a shallow embedding of the game core:
the tile-queue hook (bag construction, `getNextTile`) and the converged
`GameBoard` component (board generation, falling-tile simulation,
placement, movement, speed policy, and end-of-game number assignment).
JavaScript numbers that the code uses as integers are modelled as `Int`
(coordinates) or `Nat` (counts, speeds, tokens).  `Math.random()`-driven
choices are modelled by an oracle: a list of natural numbers consumed one
value per call, the drawn value reduced modulo the relevant range, which
realises exactly the set of outcomes `Math.floor(Math.random() * n)` can
produce.
-/

/-- The `TerrainType` union from `GameBoard.tsx`. -/
inductive Terrain where
  | forest | field | mountain | pasture | hill | desert | water | gold
deriving DecidableEq, Repr

/-- A hex cell in axial coordinates `(q, r)`.  The generated boards never
set `isWater` or pre-assign terrain, so a layout cell is just its
coordinate pair. -/
abbrev Cell := Int × Int

/-- The `TileCount` record from `GameModeSelector`: the configured number
of tiles of each terrain kind. -/
structure TileCount where
  field : Nat
  forest : Nat
  pasture : Nat
  hill : Nat
  mountain : Nat
  desert : Nat
  water : Nat
  gold : Nat
deriving DecidableEq, Repr

/-- Read the configured count for one terrain kind
(`counts[kind]` on the `TileCount` record). -/
def TileCount.get (c : TileCount) : Terrain → Nat
  | .field => c.field
  | .forest => c.forest
  | .pasture => c.pasture
  | .hill => c.hill
  | .mountain => c.mountain
  | .desert => c.desert
  | .water => c.water
  | .gold => c.gold

/-- `Math.max(0, prev[t] - 1)` applied to one field of the record
(the update inside `getNextTile`). -/
def TileCount.decr (c : TileCount) : Terrain → TileCount
  | .field => { c with field := c.field - 1 }
  | .forest => { c with forest := c.forest - 1 }
  | .pasture => { c with pasture := c.pasture - 1 }
  | .hill => { c with hill := c.hill - 1 }
  | .mountain => { c with mountain := c.mountain - 1 }
  | .desert => { c with desert := c.desert - 1 }
  | .water => { c with water := c.water - 1 }
  | .gold => { c with gold := c.gold - 1 }

/-- The unshuffled bag: `generateTileBag` pushes the kinds in the fixed
source order field, forest, pasture, hill, mountain, desert, water, gold,
each repeated its configured count. -/
def expandBag (c : TileCount) : List Terrain :=
  List.replicate c.field .field ++ List.replicate c.forest .forest ++
  List.replicate c.pasture .pasture ++ List.replicate c.hill .hill ++
  List.replicate c.mountain .mountain ++ List.replicate c.desert .desert ++
  List.replicate c.water .water ++ List.replicate c.gold .gold

/-- Exchange the elements at positions `i` and `j`
(`[bag[i], bag[j]] = [bag[j], bag[i]]`).  Out-of-range indices leave the
list unchanged (they never occur in the shuffle loop). -/
def swapAt {α : Type} : List α → Nat → Nat → List α
  | [], _, _ => []
  | l, 0, 0 => l
  | x :: xs, 0, j + 1 =>
    match xs[j]? with
    | some y => y :: xs.set j x
    | none => x :: xs
  | x :: xs, i + 1, 0 =>
    match xs[i]? with
    | some y => y :: xs.set i x
    | none => x :: xs
  | x :: xs, i + 1, j + 1 => x :: swapAt xs i j

/-- The Fisher–Yates loop of `generateTileBag`: the counter `i` is the
current swap index, processed from `bag.length - 1` down to `1`; the swap
partner is `Math.floor(Math.random() * (i + 1))`, i.e. the next oracle
value reduced mod `i + 1`. -/
def fyLoop {α : Type} : Nat → List α → List Nat → List α
  | 0, l, _ => l
  | i + 1, l, o => fyLoop i (swapAt l (i + 1) (o.headD 0 % (i + 2))) o.tail

/-- `generateTileBag(counts)` from `useTileQueue`: expand the counts into
a flat list and shuffle it in place. -/
def generateTileBag (c : TileCount) (o : List Nat) : List Terrain :=
  fyLoop ((expandBag c).length - 1) (expandBag c) o

/-- `Math.abs` on integers. -/
def iabs (x : Int) : Int := if x < 0 then -x else x

/-- The integer range `[a, a+1, ..., b]` (empty when `b < a`), as produced
by `for (let v = a; v <= b; v++)`. -/
def hexRange (a b : Int) : List Int :=
  (List.range (b - a + 1).toNat).map (fun i => a + (i : Int))

/-- The explicit 19-cell list of the `size === 2` branch of
`generateCatanBoard`, in source order. -/
def classicLandHexes : List Cell :=
  [(0, 0),
   (1, 0), (1, -1), (0, -1), (-1, 0), (-1, 1), (0, 1),
   (2, 0), (2, -1), (2, -2), (1, -2), (0, -2), (-1, -1),
   (-2, 0), (-2, 1), (-2, 2), (-1, 2), (0, 2), (1, 1)]

/-- One radius-`n` branch of `generateCatanBoard` (used verbatim with
`n = 3` and `n = 4`): enumerate `q` from `-n` to `n`, `r` from
`max(-n, -q-n)` to `min(n, -q+n)`, keeping `(q, r)` when
`|q| <= n && |r| <= n && |s| <= n` with `s = -q-r`. -/
def radiusHexes (n : Int) : List Cell :=
  ((hexRange (-n) n).map (fun q =>
    (hexRange (max (-n) (-q - n)) (min n (-q + n))).filterMap (fun r =>
      let s := -q - r
      if iabs q ≤ n ∧ iabs r ≤ n ∧ iabs s ≤ n then some (q, r) else none))).flatten

/-- The fallback branch of `generateCatanBoard` for non-canonical sizes:
same loops, keeping `(q, r)` when `max(|q|, |r|, |s|) <= size`. -/
def fallbackHexes (size : Int) : List Cell :=
  ((hexRange (-size) size).map (fun q =>
    (hexRange (max (-size) (-q - size)) (min size (-q + size))).filterMap (fun r =>
      let s := -q - r
      if max (max (iabs q) (iabs r)) (iabs s) ≤ size then some (q, r) else none))).flatten

/-- `generateCatanBoard(size)` from `GameBoard.tsx`: the hardcoded classic
19-cell island for size 2, radius-3 and radius-4 hexagons for sizes 3 and
4, and the generic radius formula otherwise.  No generated cell is water
and none carries terrain. -/
def generateCatanBoard (size : Int) : List Cell :=
  if size = 2 then classicLandHexes
  else if size = 3 then radiusHexes 3
  else if size = 4 then radiusHexes 4
  else fallbackHexes size

-- ===== Permutation facts about the shuffle =====

theorem set_cons_perm {α : Type} (x : α) :
    ∀ (xs : List α) (j : Nat) (y : α), xs[j]? = some y →
      (y :: xs.set j x).Perm (x :: xs) := by
  intro xs
  induction xs with
  | nil => intro j y h; simp at h
  | cons z t ih =>
    intro j y h
    cases j with
    | zero =>
      simp only [List.getElem?_cons_zero, Option.some.injEq] at h
      cases h
      simpa using List.Perm.swap x z t
    | succ j =>
      simp only [List.getElem?_cons_succ] at h
      have hp := ih j y h
      have h1 : (y :: (z :: t).set (j + 1) x) = y :: z :: t.set j x := by simp
      rw [h1]
      exact ((List.Perm.swap z y (t.set j x)).trans (hp.cons z)).trans
        (List.Perm.swap x z t)

theorem swapAt_perm {α : Type} :
    ∀ (l : List α) (i j : Nat), (swapAt l i j).Perm l := by
  intro l
  induction l with
  | nil => intro i j; simp [swapAt]
  | cons x xs ih =>
    intro i j
    match i, j with
    | 0, 0 => simp [swapAt]
    | 0, j + 1 =>
      simp only [swapAt]
      cases h : xs[j]? with
      | none => simp [h]
      | some y => simp only [h]; exact set_cons_perm x xs j y h
    | i + 1, 0 =>
      simp only [swapAt]
      cases h : xs[i]? with
      | none => simp [h]
      | some y => simp only [h]; exact set_cons_perm x xs i y h
    | i + 1, j + 1 =>
      simp only [swapAt]
      exact (ih i j).cons x

theorem fyLoop_perm {α : Type} :
    ∀ (n : Nat) (l : List α) (o : List Nat), (fyLoop n l o).Perm l := by
  intro n
  induction n with
  | zero => intro l o; simp [fyLoop]
  | succ i ih =>
    intro l o
    exact (ih _ o.tail).trans (swapAt_perm l (i + 1) (o.headD 0 % (i + 2)))

theorem generateTileBag_perm (c : TileCount) (o : List Nat) :
    (generateTileBag c o).Perm (expandBag c) :=
  fyLoop_perm _ _ o

theorem expandBag_length (c : TileCount) :
    (expandBag c).length =
      c.field + c.forest + c.pasture + c.hill + c.mountain + c.desert +
        c.water + c.gold := by
  simp [expandBag]
  omega

theorem expandBag_count (c : TileCount) (t : Terrain) :
    (expandBag c).count t = c.get t := by
  cases t <;> simp [expandBag, List.count_append, List.count_replicate, TileCount.get]

/-- Claim C3: for every `TileCount` configuration, `generateTileBag`
produces a permutation of the configured multiset: its length is the sum
of all count values, the number of occurrences of each terrain kind
equals that kind's configured count, and the output is a permutation of
the unshuffled expansion (every element of the original multiset appears
exactly once in the output). -/
theorem claim_c3_tile_bag_multiset (c : TileCount) (o : List Nat) :
    (generateTileBag c o).length =
        c.field + c.forest + c.pasture + c.hill + c.mountain + c.desert +
          c.water + c.gold ∧
      (∀ t : Terrain, (generateTileBag c o).count t = c.get t) ∧
      (generateTileBag c o).Perm (expandBag c) := by
  refine ⟨?_, ?_, generateTileBag_perm c o⟩
  · rw [(generateTileBag_perm c o).length_eq, expandBag_length]
  · intro t
    rw [(generateTileBag_perm c o).count_eq, expandBag_count]

/-- Claim C7: board generation is a pure function of the size parameter;
sizes 2, 3, 4 yield exactly 19, 37 and 61 land cells, and two calls with
the same size return equal cell lists. -/
theorem claim_c7_board_generation :
    (generateCatanBoard 2).length = 19 ∧
      (generateCatanBoard 3).length = 37 ∧
      (generateCatanBoard 4).length = 61 ∧
      ∀ size : Int, generateCatanBoard size = generateCatanBoard size := by
  refine ⟨by decide, by decide, by decide, fun _ => rfl⟩

-- ===== The tile queue (useTileQueue) =====

/-- The state held by the `useTileQueue` hook: the queue list, the
current and next tile views, and the per-terrain remaining counts. -/
structure QueueState where
  tileQueue : List Terrain
  currentTile : Option Terrain
  nextTile : Option Terrain
  remainingTiles : TileCount
deriving DecidableEq, Repr

/-- `getNextTile` from `useTileQueue`: when the queue holds one tile or
none it returns `null` without touching any state; otherwise it drops the
front element, promotes `tileQueue[1]` to current, recomputes next, and
decrements the remaining count of the previous current tile. -/
def getNextTile (s : QueueState) : Option Terrain × QueueState :=
  if s.tileQueue.length ≤ 1 then (none, s)
  else
    let newQueue := s.tileQueue.tail
    let newCurrent := s.tileQueue[1]?
    let newNext := if newQueue.length > 1 then newQueue[1]? else none
    let remaining :=
      match s.currentTile with
      | some t => s.remainingTiles.decr t
      | none => s.remainingTiles
    (newCurrent,
      { tileQueue := newQueue, currentTile := newCurrent, nextTile := newNext,
        remainingTiles := remaining })

-- ===== Board state and layout queries =====

/-- The `board` map of `GameBoard`: occupied cell to placed terrain.  The
component only ever inserts a key it has just checked to be absent, so a
cons-based association list has the same lookup semantics and its length
is the number of occupied cells. -/
abbrev Board := List (Cell × Terrain)

/-- `board.get(key)` restricted to the terrain field (entries always
carry a terrain when inserted). -/
def lookupCell : Board → Cell → Option Terrain
  | [], _ => none
  | e :: es, c => if e.1 = c then some e.2 else lookupCell es c

/-- `board.has(key) && board.get(key)?.terrain`: the occupancy test used
throughout the component. -/
def occupiedAt (b : Board) (c : Cell) : Bool :=
  (lookupCell b c).isSome

/-- `Math.min(...landHexes.map(h => h.r))`: the board's top row.  The
generated layouts are never empty; the default for the empty list is
irrelevant to every caller (see the move lemmas). -/
def topRow (hexes : List Cell) : Int :=
  match hexes.map Prod.snd with
  | [] => 0
  | r :: rs => rs.foldl min r

/-- The cells of one column sorted by `r` ascending
(`landHexes.filter(h => h.q === prev.q).sort((a, b) => a.r - b.r)`). -/
def colCells (hexes : List Cell) (q : Int) : List Cell :=
  List.insertionSort (fun a b : Cell => a.2 ≤ b.2) (hexes.filter (fun h => h.1 = q))

/-- First-occurrence deduplication with an accumulator of already seen
values, as iteration over a JS `Set` built from the column values. -/
def dedupAux : List Int → List Int → List Int
  | _, [] => []
  | seen, x :: xs =>
    if x ∈ seen then dedupAux seen xs else x :: dedupAux (x :: seen) xs

/-- First-occurrence deduplication. -/
def dedupInts (l : List Int) : List Int := dedupAux [] l

/-- `getValidSpawnPositions`: one spawn position per distinct land
column, two rows above the board's top row. -/
def spawnPositions (hexes : List Cell) : List Cell :=
  (dedupInts (hexes.map Prod.fst)).map (fun q => (q, topRow hexes - 2))

-- ===== The game state machine (GameBoard component) =====

/-- The per-session mutable state of the `GameBoard` component that the
claims are about.  `isPlaying` is modelled as always true (commands are
only delivered to a running session); rendering state is excluded. -/
structure GameState where
  board : Board
  tilePosition : Cell
  tileRotation : Nat
  dropSpeed : Nat
  showFinalBoard : Bool
  queue : QueueState
deriving DecidableEq, Repr

/-- `spawnNewTile`: no-op unless the queue still has more than one tile
(`hasMoreTiles`); otherwise pick a uniformly random spawn column via the
oracle and reset the rotation to 0.  Consumes one oracle value exactly
when the source calls `Math.random()`. -/
def spawnNewTile (hexes : List Cell) (s : GameState) (o : List Nat) :
    GameState × List Nat :=
  if s.queue.tileQueue.length ≤ 1 then (s, o)
  else
    match spawnPositions hexes with
    | [] => (s, o)
    | ps@(_ :: _) =>
      let pos := ps.getD (o.headD 0 % ps.length) (0, 0)
      ({ s with tilePosition := pos, tileRotation := 0 }, o.tail)

/-- `placeTile(q, r)`: early return when there is no current tile or the
target is not a valid land cell; re-spawn when the target is occupied;
otherwise commit the current tile to the board, advance the queue, and
either spawn the next tile or finish the game when the draw returns
`null`. -/
def placeTile (hexes : List Cell) (s : GameState) (q r : Int) (o : List Nat) :
    GameState × List Nat :=
  match s.queue.currentTile with
  | none => (s, o)
  | some t =>
    if (q, r) ∈ hexes then
      if occupiedAt s.board (q, r) then
        spawnNewTile hexes s o
      else
        let board' := ((q, r), t) :: s.board
        let drawn := getNextTile s.queue
        let s' := { s with board := board', queue := drawn.2 }
        if drawn.1.isSome then
          spawnNewTile hexes s' o
        else
          ({ s' with showFinalBoard := true }, o)
    else (s, o)

/-- The top-to-bottom column scan shared by `autoDropTile` and
`hardDrop`, after the top cell has been checked: given the last examined
(unoccupied) cell `prev`, the resting row is `prev.r` as soon as an
occupied cell is found, and the bottom-most row when the column is
empty. -/
def restScan (b : Board) (prev : Cell) : List Cell → Int
  | [] => prev.2
  | c :: cs => if occupiedAt b c then prev.2 else restScan b c cs

/-- The resting row for a non-empty sorted column `c :: cs`: the row just
above the column's top cell when that cell is occupied, else the scan
result. -/
def dropTargetR (b : Board) (c : Cell) (cs : List Cell) : Int :=
  if occupiedAt b c then c.2 - 1 else restScan b c cs

/-- `autoDropTile`: one gravity tick.  Guarded on a current tile and the
game not being finished; the tile steps one row down unless the candidate
row reaches or passes the column's resting row, in which case the tile is
placed at the resting row. -/
def autoDropTile (hexes : List Cell) (s : GameState) (o : List Nat) :
    GameState × List Nat :=
  match s.queue.currentTile with
  | none => (s, o)
  | some _ =>
    if s.showFinalBoard then (s, o)
    else
      let pos := s.tilePosition
      let newR := pos.2 + 1
      match colCells hexes pos.1 with
      | [] => (s, o)
      | c :: cs =>
        let targetR := dropTargetR s.board c cs
        if newR ≥ targetR then placeTile hexes s pos.1 targetR o
        else ({ s with tilePosition := (pos.1, newR) }, o)

/-- `hardDrop` as reachable through the key handler: the handler guards
on a current tile and the game not being finished, then the resting row
is computed directly and the tile committed there. -/
def hardDrop (hexes : List Cell) (s : GameState) (o : List Nat) :
    GameState × List Nat :=
  match s.queue.currentTile with
  | none => (s, o)
  | some _ =>
    if s.showFinalBoard then (s, o)
    else
      match colCells hexes s.tilePosition.1 with
      | [] => (s, o)
      | c :: cs =>
        placeTile hexes s s.tilePosition.1 (dropTargetR s.board c cs) o

/-- The shared body of the ArrowLeft/ArrowRight handlers, with `newQ`
the destination column: above the board's top row any column with a land
cell is reachable; at or below it the destination cell at the same row
must be a valid land cell and unoccupied; otherwise the position is
unchanged. -/
def moveToColumn (hexes : List Cell) (s : GameState) (newQ : Int) : GameState :=
  let pos := s.tilePosition
  if pos.2 < topRow hexes then
    if hexes.any (fun h => h.1 = newQ) then { s with tilePosition := (newQ, pos.2) }
    else s
  else
    if (newQ, pos.2) ∈ hexes ∧ ¬occupiedAt s.board (newQ, pos.2) then
      { s with tilePosition := (newQ, pos.2) }
    else s

/-- The discrete inputs the session forwards to the engine: the arrow
keys and space of the key handler, the auto-drop timer tick, the soft
drop release, and the 20-second speed-ramp tick. -/
inductive Cmd where
  | moveLeft | moveRight | hardDropKey | autoTick | rotate
  | softDropOn | softDropOff | rampTick
deriving DecidableEq, Repr

/-- One event step of the component.  Key-handler commands are guarded on
a current tile and the game not being finished; the ArrowDown release and
the speed-ramp tick are not (their handlers have no such guard). -/
def step (hexes : List Cell) (s : GameState) (c : Cmd) (o : List Nat) :
    GameState × List Nat :=
  match c with
  | .autoTick => autoDropTile hexes s o
  | .hardDropKey => hardDrop hexes s o
  | .softDropOff => ({ s with dropSpeed := 1000 }, o)
  | .rampTick => ({ s with dropSpeed := max 300 (s.dropSpeed - 20) }, o)
  | .moveLeft =>
    match s.queue.currentTile with
    | none => (s, o)
    | some _ =>
      if s.showFinalBoard then (s, o)
      else (moveToColumn hexes s (s.tilePosition.1 - 1), o)
  | .moveRight =>
    match s.queue.currentTile with
    | none => (s, o)
    | some _ =>
      if s.showFinalBoard then (s, o)
      else (moveToColumn hexes s (s.tilePosition.1 + 1), o)
  | .rotate =>
    match s.queue.currentTile with
    | none => (s, o)
    | some _ =>
      if s.showFinalBoard then (s, o)
      else ({ s with tileRotation := (s.tileRotation + 60) % 360 }, o)
  | .softDropOn =>
    match s.queue.currentTile with
    | none => (s, o)
    | some _ =>
      if s.showFinalBoard then (s, o)
      else ({ s with dropSpeed := 100 }, o)

/-- Run a list of events, threading the oracle. -/
def run (hexes : List Cell) : GameState → List Cmd → List Nat → GameState
  | s, [], _ => s
  | s, c :: cs, o =>
    let so := step hexes s c o
    run hexes so.1 cs so.2

/-- The state right after the session starts: empty board, position
`(0, 0)`, rotation 0, base speed 1000, queue initialised from the freshly
generated bag with `remainingTiles` a copy of the configured counts. -/
def initState (bag : List Terrain) (counts : TileCount) : GameState :=
  { board := []
    tilePosition := (0, 0)
    tileRotation := 0
    dropSpeed := 1000
    showFinalBoard := false
    queue :=
      { tileQueue := bag
        currentTile := bag.head?
        nextTile := bag[1]?
        remainingTiles := counts } }

/-- The session state after the mount-time first spawn
(the SPAWN FIRST TILE effect). -/
def initGame (hexes : List Cell) (bag : List Terrain) (counts : TileCount)
    (o : List Nat) : GameState :=
  (spawnNewTile hexes (initState bag counts) o).1

-- ===== Claim C10: drawing from a short queue =====

/-- Claim C10: when the tile queue holds one tile or none, `getNextTile`
returns `null` and leaves the whole queue state unchanged: queue
sequence, current tile, next tile and per-terrain remaining counts are
exactly as before, so in particular the kind of the last remaining tile
is never decremented. -/
theorem claim_c10_short_queue_draw (s : QueueState)
    (h : s.tileQueue.length ≤ 1) : getNextTile s = (none, s) := by
  simp [getNextTile, h]

/-- Witness for C10 at a concrete one-tile queue. -/
theorem claim_c10_short_queue_draw_witness :
    getNextTile
        { tileQueue := [Terrain.forest], currentTile := some Terrain.forest,
          nextTile := none,
          remainingTiles := ⟨0, 1, 0, 0, 0, 0, 0, 0⟩ } =
      (none,
        { tileQueue := [Terrain.forest], currentTile := some Terrain.forest,
          nextTile := none,
          remainingTiles := ⟨0, 1, 0, 0, 0, 0, 0, 0⟩ }) :=
  claim_c10_short_queue_draw _ (by decide)

-- ===== Claim C8: the speed policy =====

/-- A concrete running session used in several concrete evaluations: the
classic size-2 board, a two-tile bag, first spawn with oracle value 0. -/
def demoHexes : List Cell := generateCatanBoard 2

def demoCounts : TileCount := ⟨1, 1, 0, 0, 0, 0, 0, 0⟩

def demoBag : List Terrain := [Terrain.forest, Terrain.field]

def demoStart : GameState := initGame demoHexes demoBag demoCounts [0]

/-- Counterexample to claim C8: after two 20-second ramp ticks the
prevailing ramped interval is 960, but pressing and releasing soft drop
leaves the interval at the fixed base 1000 — the release handler writes
the constant 1000 rather than restoring the ramped speed. -/
theorem claim_c8_counterexample :
    (run demoHexes demoStart
        [.rampTick, .rampTick, .softDropOn, .softDropOff] []).dropSpeed = 1000 ∧
      max 300 (1000 - 20 * 2) = 960 ∧
      (run demoHexes demoStart
        [.rampTick, .rampTick, .softDropOn, .softDropOff] []).dropSpeed ≠
        max 300 (1000 - 20 * 2) := by
  refine ⟨by decide, by decide, by decide⟩

theorem ramp_run_speed (hexes : List Cell) :
    ∀ (n : Nat) (s : GameState) (o : List Nat),
      (run hexes s (List.replicate n .rampTick) o).dropSpeed =
        if n = 0 then s.dropSpeed else max 300 (s.dropSpeed - 20 * n) := by
  intro n
  induction n with
  | zero => intro s o; simp [run]
  | succ n ih =>
    intro s o
    rw [List.replicate_succ]
    show (run hexes (step hexes s .rampTick o).1
        (List.replicate n .rampTick) (step hexes s .rampTick o).2).dropSpeed = _
    rw [ih]
    simp only [step]
    rcases Nat.eq_zero_or_pos n with h | h
    · subst h; simp
    · have hn : ¬n = 0 := Nat.pos_iff_ne_zero.mp h
      simp [hn]
      omega

/-- Claim C8, amended: the interval starts at 1000 and after `n`
20-second ramp ticks equals `max 300 (1000 - 20 n)` (a fixed decrement of
20 per tick down to the floor 300); holding soft drop overrides the
interval to the fixed value 100; but releasing soft drop always restores
the fixed base value 1000 — not the prevailing ramped speed. -/
theorem claim_c8_amended :
    (∀ bag counts, (initState bag counts).dropSpeed = 1000) ∧
      (∀ (hexes : List Cell) (bag : List Terrain) (counts : TileCount)
          (n : Nat) (o : List Nat),
        (run hexes (initState bag counts)
            (List.replicate n .rampTick) o).dropSpeed = max 300 (1000 - 20 * n)) ∧
      (∀ (hexes : List Cell) (s : GameState) (o : List Nat),
        (step hexes s .softDropOn o).1.dropSpeed =
          if s.queue.currentTile.isSome ∧ s.showFinalBoard = false then 100
          else s.dropSpeed) ∧
      (∀ (hexes : List Cell) (s : GameState) (o : List Nat),
        (step hexes s .softDropOff o).1.dropSpeed = 1000) := by
  refine ⟨fun bag counts => rfl, ?_, ?_, fun hexes s o => rfl⟩
  · intro hexes bag counts n o
    rw [ramp_run_speed]
    rcases Nat.eq_zero_or_pos n with h | h
    · subst h; simp [initState]
    · have hn : ¬n = 0 := Nat.pos_iff_ne_zero.mp h
      simp [hn, initState]
  · intro hexes s o
    cases hc : s.queue.currentTile with
    | none => simp [step, hc]
    | some t =>
      cases hf : s.showFinalBoard with
      | false => simp [step, hc, hf]
      | true => simp [step, hc, hf]

-- ===== Claim C6: horizontal moves =====

/-- The spec-side condition for a horizontal move to column `newQ`:
above the board's top row the destination column must contain at least
one land cell; at or below the top row the destination cell at the same
row must be a valid land cell and currently unoccupied. -/
def moveAllowedTo (hexes : List Cell) (b : Board) (pos : Cell) (newQ : Int) : Prop :=
  (pos.2 < topRow hexes ∧ ∃ h ∈ hexes, h.1 = newQ) ∨
    (¬pos.2 < topRow hexes ∧ (newQ, pos.2) ∈ hexes ∧
      lookupCell b (newQ, pos.2) = none)

instance (hexes : List Cell) (b : Board) (pos : Cell) (newQ : Int) :
    Decidable (moveAllowedTo hexes b pos newQ) := by
  unfold moveAllowedTo
  exact inferInstance

theorem moveToColumn_eq (hexes : List Cell) (s : GameState) (newQ : Int) :
    moveToColumn hexes s newQ =
      if moveAllowedTo hexes s.board s.tilePosition newQ
      then { s with tilePosition := (newQ, s.tilePosition.2) } else s := by
  have hany : (hexes.any (fun h => h.1 = newQ) = true) ↔ ∃ h ∈ hexes, h.1 = newQ := by
    simp [List.any_eq_true]
  have hocc : (¬occupiedAt s.board (newQ, s.tilePosition.2) = true) ↔
      lookupCell s.board (newQ, s.tilePosition.2) = none := by
    simp [occupiedAt, Option.not_isSome_iff_eq_none]
  unfold moveToColumn moveAllowedTo
  by_cases h1 : s.tilePosition.2 < topRow hexes
  · simp only [if_pos h1]
    by_cases h2 : hexes.any (fun h => h.1 = newQ) = true
    · rw [if_pos h2, if_pos (Or.inl ⟨h1, hany.mp h2⟩)]
    · rw [if_neg h2, if_neg]
      rintro (⟨_, he⟩ | ⟨hnl, _⟩)
      · exact h2 (hany.mpr he)
      · exact hnl h1
  · simp only [if_neg h1]
    by_cases h3 : (newQ, s.tilePosition.2) ∈ hexes ∧
        ¬occupiedAt s.board (newQ, s.tilePosition.2)
    · rw [if_pos h3, if_pos (Or.inr ⟨h1, h3.1, hocc.mp h3.2⟩)]
    · rw [if_neg h3, if_neg]
      rintro (⟨hl, _⟩ | ⟨_, hm, hn⟩)
      · exact h1 hl
      · exact h3 ⟨hm, hocc.mpr hn⟩

/-- Claim C6: a left or right move succeeds exactly when, above the top
row, the destination column has at least one land cell, and at or below
the top row, the destination cell in the adjacent column at the same row
is a valid land cell and unoccupied; in every other case the step is a
silent no-op with the state exactly unchanged. -/
theorem claim_c6_horizontal_moves (hexes : List Cell) (s : GameState) (o : List Nat) :
    step hexes s .moveLeft o =
        ((if s.queue.currentTile.isSome = true ∧ s.showFinalBoard = false ∧
              moveAllowedTo hexes s.board s.tilePosition (s.tilePosition.1 - 1)
          then { s with tilePosition := (s.tilePosition.1 - 1, s.tilePosition.2) }
          else s), o) ∧
      step hexes s .moveRight o =
        ((if s.queue.currentTile.isSome = true ∧ s.showFinalBoard = false ∧
              moveAllowedTo hexes s.board s.tilePosition (s.tilePosition.1 + 1)
          then { s with tilePosition := (s.tilePosition.1 + 1, s.tilePosition.2) }
          else s), o) := by
  constructor <;>
  · cases hc : s.queue.currentTile with
    | none => simp [step, hc]
    | some t =>
      cases hf : s.showFinalBoard with
      | true => simp [step, hc, hf]
      | false => simp [step, hc, hf, moveToColumn_eq]

-- ===== Column-sort facts =====

instance : IsTotal Cell (fun a b : Cell => a.2 ≤ b.2) :=
  ⟨fun a b => Int.le_total a.2 b.2⟩

instance : IsTrans Cell (fun a b : Cell => a.2 ≤ b.2) :=
  ⟨fun _ _ _ h1 h2 => le_trans h1 h2⟩

theorem colCells_mem (hexes : List Cell) (q : Int) (c : Cell) :
    c ∈ colCells hexes q ↔ c ∈ hexes ∧ c.1 = q := by
  simp [colCells, List.mem_insertionSort, List.mem_filter]

theorem colCells_sorted (hexes : List Cell) (q : Int) :
    List.Sorted (fun a b : Cell => a.2 ≤ b.2) (colCells hexes q) :=
  List.sorted_insertionSort _ _

theorem colCells_head_le (hexes : List Cell) (q : Int) (c : Cell) (cs : List Cell)
    (h : colCells hexes q = c :: cs) :
    ∀ x ∈ colCells hexes q, c.2 ≤ x.2 := by
  intro x hx
  rw [h] at hx
  rcases List.mem_cons.mp hx with rfl | hx
  · exact le_refl _
  · have hs := colCells_sorted hexes q
    rw [h] at hs
    exact List.rel_of_sorted_cons hs x hx

-- ===== Claim C1: placement into a full column =====

/-- Claim C1, amended: when the falling tile's column is already filled
up to its top land cell, a hard drop is a silent no-op — the computed
target row lies above the column's top cell and is not a valid land
cell, so `placeTile` returns early: the tile is NOT re-spawned, and the
falling-tile position, board, queue and every other field are unchanged;
nothing is overwritten, nothing is thrown, and no tile leaves the bag. -/
theorem claim_c1_amended (hexes : List Cell) (s : GameState) (o : List Nat)
    (c : Cell) (cs : List Cell)
    (hcol : colCells hexes s.tilePosition.1 = c :: cs)
    (hocc : occupiedAt s.board c = true) :
    step hexes s .hardDropKey o = (s, o) := by
  have hnot : ¬((s.tilePosition.1, c.2 - 1) ∈ hexes) := by
    intro hm
    have hmem : (s.tilePosition.1, c.2 - 1) ∈ colCells hexes s.tilePosition.1 :=
      (colCells_mem _ _ _).mpr ⟨hm, rfl⟩
    have hle := colCells_head_le _ _ c cs hcol _ hmem
    simp only at hle
    omega
  show hardDrop hexes s o = (s, o)
  cases hc : s.queue.currentTile with
  | none => simp [hardDrop, hc]
  | some t =>
    cases hf : s.showFinalBoard with
    | true => simp [hardDrop, hc, hf]
    | false =>
      simp [hardDrop, hc, hf, hcol, dropTargetR, hocc, placeTile, hnot]

/-- A state whose falling tile sits above column `q = 2` of the classic
board, that column being fully occupied. -/
def c1State : GameState :=
  { board :=
      [((2, -2), Terrain.forest), ((2, -1), Terrain.forest), ((2, 0), Terrain.forest)]
    tilePosition := (2, -3)
    tileRotation := 0
    dropSpeed := 1000
    showFinalBoard := false
    queue :=
      { tileQueue := [Terrain.field, Terrain.hill]
        currentTile := some Terrain.field
        nextTile := some Terrain.hill
        remainingTiles := ⟨1, 0, 0, 1, 0, 0, 0, 0⟩ } }

/-- Counterexample to claim C1 as stated: with column 2 of the classic
board full, a hard drop leaves the whole state unchanged — in
particular, the tile is not re-spawned at a fresh random column, since
every spawned position has row `topRow - 2` while the tile's row is
still `-3`. -/
theorem claim_c1_counterexample :
    step demoHexes c1State .hardDropKey [0] = (c1State, [0]) ∧
      c1State.tilePosition.2 ≠ topRow demoHexes - 2 :=
  ⟨by decide, by decide⟩

/-- Witness for the amended C1 at the concrete full-column state. -/
theorem claim_c1_amended_witness :
    step demoHexes c1State .hardDropKey [3] = (c1State, [3]) :=
  claim_c1_amended demoHexes c1State [3] (2, -2) [(2, -1), (2, 0)]
    (by decide) (by decide)

-- ===== Behavioural lemmas about placement steps =====

theorem spawnNewTile_fields (hexes : List Cell) (s : GameState) (o : List Nat) :
    (spawnNewTile hexes s o).1.board = s.board ∧
      (spawnNewTile hexes s o).1.queue = s.queue ∧
      (spawnNewTile hexes s o).1.showFinalBoard = s.showFinalBoard ∧
      (spawnNewTile hexes s o).1.dropSpeed = s.dropSpeed := by
  unfold spawnNewTile
  split
  · exact ⟨rfl, rfl, rfl, rfl⟩
  · split <;> exact ⟨rfl, rfl, rfl, rfl⟩

theorem getNextTile_short (s : QueueState) (h : s.tileQueue.length ≤ 1) :
    getNextTile s = (none, s) := by
  simp [getNextTile, h]

theorem head?_tail_eq {α : Type} (l : List α) : l.tail.head? = l[1]? := by
  cases l with
  | nil => rfl
  | cons a t => simp [List.head?_eq_getElem?]

theorem getNextTile_long (s : QueueState) (h : 1 < s.tileQueue.length) :
    (getNextTile s).1 = s.tileQueue[1]? ∧
      (getNextTile s).2.tileQueue = s.tileQueue.tail ∧
      (getNextTile s).2.currentTile = s.tileQueue[1]? := by
  have hle : ¬s.tileQueue.length ≤ 1 := Nat.not_le.mpr h
  refine ⟨?_, ?_, ?_⟩ <;> simp [getNextTile, hle]

theorem placeTile_nocurrent (hexes : List Cell) (s : GameState) (q r : Int)
    (o : List Nat) (hc : s.queue.currentTile = none) :
    placeTile hexes s q r o = (s, o) := by
  simp [placeTile, hc]

theorem placeTile_invalid (hexes : List Cell) (s : GameState) (q r : Int)
    (o : List Nat) (hm : ¬(q, r) ∈ hexes) :
    placeTile hexes s q r o = (s, o) := by
  cases hc : s.queue.currentTile <;> simp [placeTile, hc, hm]

theorem placeTile_blocked (hexes : List Cell) (s : GameState) (q r : Int)
    (o : List Nat) (t : Terrain) (hc : s.queue.currentTile = some t)
    (hm : (q, r) ∈ hexes) (ho : occupiedAt s.board (q, r) = true) :
    placeTile hexes s q r o = spawnNewTile hexes s o := by
  simp [placeTile, hc, hm, ho]

theorem placeTile_commit (hexes : List Cell) (s : GameState) (q r : Int)
    (o : List Nat) (t : Terrain) (hc : s.queue.currentTile = some t)
    (hm : (q, r) ∈ hexes) (ho : occupiedAt s.board (q, r) = false) :
    placeTile hexes s q r o =
      if (getNextTile s.queue).1.isSome then
        spawnNewTile hexes
          { s with
            board := ((q, r), t) :: s.board
            queue := (getNextTile s.queue).2 } o
      else
        ({ s with
            board := ((q, r), t) :: s.board
            queue := (getNextTile s.queue).2
            showFinalBoard := true }, o) := by
  simp [placeTile, hc, hm, ho]

/-- Every event either leaves board, queue and finished-flag untouched,
or (for a drop event on a running game) commits the current tile at the
drop target of a non-empty column: the board gains that one entry, the
queue advances by `getNextTile`, and the game finishes exactly when the
draw returns `null`. -/
theorem step_effect (hexes : List Cell) (s : GameState) (c : Cmd) (o : List Nat) :
    ((step hexes s c o).1.board = s.board ∧
      (step hexes s c o).1.queue = s.queue ∧
      (step hexes s c o).1.showFinalBoard = s.showFinalBoard) ∨
    (s.showFinalBoard = false ∧ ∃ t q r cc ccs,
      s.queue.currentTile = some t ∧
      colCells hexes q = cc :: ccs ∧ r = dropTargetR s.board cc ccs ∧
      (q, r) ∈ hexes ∧ occupiedAt s.board (q, r) = false ∧
      (step hexes s c o).1.board = ((q, r), t) :: s.board ∧
      (step hexes s c o).1.queue = (getNextTile s.queue).2 ∧
      (step hexes s c o).1.showFinalBoard =
        (if (getNextTile s.queue).1.isSome then false else true)) := by
  have placeCase : ∀ (q r : Int) (t : Terrain) (cc : Cell) (ccs : List Cell),
      s.queue.currentTile = some t → s.showFinalBoard = false →
      colCells hexes q = cc :: ccs → r = dropTargetR s.board cc ccs →
      ((placeTile hexes s q r o).1.board = s.board ∧
        (placeTile hexes s q r o).1.queue = s.queue ∧
        (placeTile hexes s q r o).1.showFinalBoard = s.showFinalBoard) ∨
      (s.showFinalBoard = false ∧ ∃ t' q' r' cc' ccs',
        s.queue.currentTile = some t' ∧
        colCells hexes q' = cc' :: ccs' ∧ r' = dropTargetR s.board cc' ccs' ∧
        (q', r') ∈ hexes ∧ occupiedAt s.board (q', r') = false ∧
        (placeTile hexes s q r o).1.board = ((q', r'), t') :: s.board ∧
        (placeTile hexes s q r o).1.queue = (getNextTile s.queue).2 ∧
        (placeTile hexes s q r o).1.showFinalBoard =
          (if (getNextTile s.queue).1.isSome then false else true)) := by
    intro q r t cc ccs hc hf hcol htr
    by_cases hm : (q, r) ∈ hexes
    · by_cases hocc : occupiedAt s.board (q, r) = true
      · rw [placeTile_blocked hexes s q r o t hc hm hocc]
        have hs := spawnNewTile_fields hexes s o
        exact Or.inl ⟨hs.1, hs.2.1, hs.2.2.1⟩
      · have ho' : occupiedAt s.board (q, r) = false := by
          cases hob : occupiedAt s.board (q, r)
          · rfl
          · exact absurd hob hocc
        rw [placeTile_commit hexes s q r o t hc hm ho']
        right
        refine ⟨hf, t, q, r, cc, ccs, hc, hcol, htr, hm, ho', ?_⟩
        by_cases hd : (getNextTile s.queue).1.isSome = true
        · rw [if_pos hd]
          have hs := spawnNewTile_fields hexes
            { s with
              board := ((q, r), t) :: s.board
              queue := (getNextTile s.queue).2 } o
          refine ⟨hs.1, hs.2.1, ?_⟩
          rw [hs.2.2.1, if_pos hd]
          exact hf
        · rw [if_neg hd, if_neg hd]
          exact ⟨rfl, rfl, rfl⟩
    · rw [placeTile_invalid hexes s q r o hm]
      exact Or.inl ⟨rfl, rfl, rfl⟩
  cases c with
  | moveLeft =>
    cases hc : s.queue.currentTile with
    | none =>
      have hstep : step hexes s .moveLeft o = (s, o) := by simp [step, hc]
      rw [hstep]
      exact Or.inl ⟨rfl, rfl, rfl⟩
    | some t =>
      cases hf : s.showFinalBoard with
      | true =>
        have hstep : step hexes s .moveLeft o = (s, o) := by simp [step, hc, hf]
        rw [hstep]
        exact Or.inl ⟨rfl, rfl, hf⟩
      | false =>
        left
        have hstep : step hexes s .moveLeft o =
            (moveToColumn hexes s (s.tilePosition.1 - 1), o) := by
          simp [step, hc, hf]
        rw [hstep, moveToColumn_eq]
        split
        · exact ⟨rfl, rfl, hf⟩
        · exact ⟨rfl, rfl, hf⟩
  | moveRight =>
    cases hc : s.queue.currentTile with
    | none =>
      have hstep : step hexes s .moveRight o = (s, o) := by simp [step, hc]
      rw [hstep]
      exact Or.inl ⟨rfl, rfl, rfl⟩
    | some t =>
      cases hf : s.showFinalBoard with
      | true =>
        have hstep : step hexes s .moveRight o = (s, o) := by simp [step, hc, hf]
        rw [hstep]
        exact Or.inl ⟨rfl, rfl, hf⟩
      | false =>
        left
        have hstep : step hexes s .moveRight o =
            (moveToColumn hexes s (s.tilePosition.1 + 1), o) := by
          simp [step, hc, hf]
        rw [hstep, moveToColumn_eq]
        split
        · exact ⟨rfl, rfl, hf⟩
        · exact ⟨rfl, rfl, hf⟩
  | rotate =>
    cases hc : s.queue.currentTile with
    | none =>
      have hstep : step hexes s .rotate o = (s, o) := by simp [step, hc]
      rw [hstep]
      exact Or.inl ⟨rfl, rfl, rfl⟩
    | some t =>
      cases hf : s.showFinalBoard with
      | true =>
        have hstep : step hexes s .rotate o = (s, o) := by simp [step, hc, hf]
        rw [hstep]
        exact Or.inl ⟨rfl, rfl, hf⟩
      | false =>
        have hstep : step hexes s .rotate o =
            ({ s with tileRotation := (s.tileRotation + 60) % 360 }, o) := by
          simp [step, hc, hf]
        rw [hstep]
        exact Or.inl ⟨rfl, rfl, hf⟩
  | softDropOn =>
    cases hc : s.queue.currentTile with
    | none =>
      have hstep : step hexes s .softDropOn o = (s, o) := by simp [step, hc]
      rw [hstep]
      exact Or.inl ⟨rfl, rfl, rfl⟩
    | some t =>
      cases hf : s.showFinalBoard with
      | true =>
        have hstep : step hexes s .softDropOn o = (s, o) := by simp [step, hc, hf]
        rw [hstep]
        exact Or.inl ⟨rfl, rfl, hf⟩
      | false =>
        have hstep : step hexes s .softDropOn o = ({ s with dropSpeed := 100 }, o) := by
          simp [step, hc, hf]
        rw [hstep]
        exact Or.inl ⟨rfl, rfl, hf⟩
  | softDropOff => exact Or.inl ⟨rfl, rfl, rfl⟩
  | rampTick => exact Or.inl ⟨rfl, rfl, rfl⟩
  | hardDropKey =>
    cases hc : s.queue.currentTile with
    | none =>
      have hstep : step hexes s .hardDropKey o = (s, o) := by simp [step, hardDrop, hc]
      rw [hstep]
      exact Or.inl ⟨rfl, rfl, rfl⟩
    | some t =>
      cases hf : s.showFinalBoard with
      | true =>
        have hstep : step hexes s .hardDropKey o = (s, o) := by
          simp [step, hardDrop, hc, hf]
        rw [hstep]
        exact Or.inl ⟨rfl, rfl, hf⟩
      | false =>
        cases hcol : colCells hexes s.tilePosition.1 with
        | nil =>
          have hstep : step hexes s .hardDropKey o = (s, o) := by
            simp [step, hardDrop, hc, hf, hcol]
          rw [hstep]
          exact Or.inl ⟨rfl, rfl, hf⟩
        | cons cc ccs =>
          have hstep : step hexes s .hardDropKey o =
              placeTile hexes s s.tilePosition.1 (dropTargetR s.board cc ccs) o := by
            simp [step, hardDrop, hc, hf, hcol]
          rw [hstep]
          rcases placeCase s.tilePosition.1 (dropTargetR s.board cc ccs) t cc ccs hc hf
              hcol rfl with h | ⟨_, t', q', r', cc', ccs', hc', h2, h3, h4, h5, h6, h7, h8⟩
          · exact Or.inl ⟨h.1, h.2.1, h.2.2.trans hf⟩
          · exact Or.inr ⟨rfl, t', q', r', cc', ccs', hc.symm.trans hc', h2, h3, h4, h5,
              h6, h7, h8⟩
  | autoTick =>
    cases hc : s.queue.currentTile with
    | none =>
      have hstep : step hexes s .autoTick o = (s, o) := by simp [step, autoDropTile, hc]
      rw [hstep]
      exact Or.inl ⟨rfl, rfl, rfl⟩
    | some t =>
      cases hf : s.showFinalBoard with
      | true =>
        have hstep : step hexes s .autoTick o = (s, o) := by
          simp [step, autoDropTile, hc, hf]
        rw [hstep]
        exact Or.inl ⟨rfl, rfl, hf⟩
      | false =>
        cases hcol : colCells hexes s.tilePosition.1 with
        | nil =>
          have hstep : step hexes s .autoTick o = (s, o) := by
            simp [step, autoDropTile, hc, hf, hcol]
          rw [hstep]
          exact Or.inl ⟨rfl, rfl, hf⟩
        | cons cc ccs =>
          by_cases hge : s.tilePosition.2 + 1 ≥ dropTargetR s.board cc ccs
          · have hstep : step hexes s .autoTick o =
                placeTile hexes s s.tilePosition.1 (dropTargetR s.board cc ccs) o := by
              simp [step, autoDropTile, hc, hf, hcol, hge]
            rw [hstep]
            rcases placeCase s.tilePosition.1 (dropTargetR s.board cc ccs) t cc ccs hc hf
                hcol rfl with h | ⟨_, t', q', r', cc', ccs', hc', h2, h3, h4, h5, h6, h7, h8⟩
            · exact Or.inl ⟨h.1, h.2.1, h.2.2.trans hf⟩
            · exact Or.inr ⟨rfl, t', q', r', cc', ccs', hc.symm.trans hc', h2, h3, h4, h5,
                h6, h7, h8⟩
          · have hstep : step hexes s .autoTick o =
                ({ s with tilePosition := (s.tilePosition.1, s.tilePosition.2 + 1) }, o) := by
              simp [step, autoDropTile, hc, hf, hcol, hge]
            rw [hstep]
            exact Or.inl ⟨rfl, rfl, hf⟩

-- ===== Claim C5: bag-plus-board conservation =====

/-- The reachable-state invariant for tile counting: the current tile is
always the front of the queue, the queue length plus the number of
committed tiles equals the configured total while the game is running,
and once the game has finished the sum exceeds the total by exactly one
because the final tile is committed to the board but never removed from
the queue. -/
def countInv (T : Nat) (s : GameState) : Prop :=
  s.queue.currentTile = s.queue.tileQueue.head? ∧
    (s.showFinalBoard = false → s.queue.tileQueue.length + s.board.length = T) ∧
    (s.showFinalBoard = true →
      s.queue.tileQueue.length + s.board.length = T + 1 ∧
        s.queue.tileQueue.length = 1)

theorem countInv_step (hexes : List Cell) (T : Nat) (s : GameState) (c : Cmd)
    (o : List Nat) (h : countInv T s) : countInv T (step hexes s c o).1 := by
  obtain ⟨hcur, hrun, hfin⟩ := h
  rcases step_effect hexes s c o with ⟨hb, hq, hf⟩ |
    ⟨hsf, t, q, r, cc, ccs, hc, _, _, _, _, hb, hq, hf⟩
  · refine ⟨?_, ?_, ?_⟩
    · rw [hq]; exact hcur
    · intro hx; rw [hf] at hx; rw [hq, hb]; exact hrun hx
    · intro hx; rw [hf] at hx; rw [hq, hb]; exact hfin hx
  · have hne : s.queue.tileQueue ≠ [] := by
      intro hnil
      rw [hcur, hnil] at hc
      simp at hc
    have hlen1 : 1 ≤ s.queue.tileQueue.length := by
      cases hq2 : s.queue.tileQueue with
      | nil => exact absurd hq2 hne
      | cons a l => simp
    have hcount := hrun hsf
    by_cases hshort : s.queue.tileQueue.length ≤ 1
    · have hq1 : s.queue.tileQueue.length = 1 := le_antisymm hshort hlen1
      have hg := getNextTile_short s.queue hshort
      have hdrawn : (getNextTile s.queue).1 = none := by rw [hg]
      have hqueue : (getNextTile s.queue).2 = s.queue := by rw [hg]
      refine ⟨?_, ?_, ?_⟩
      · rw [hq, hqueue]; exact hcur
      · intro hx
        rw [hf, hdrawn] at hx
        simp at hx
      · intro _
        rw [hq, hqueue, hb]
        constructor
        · simp only [List.length_cons]
          omega
        · exact hq1
    · have hlong : 1 < s.queue.tileQueue.length := Nat.lt_of_not_le hshort
      obtain ⟨hd1, hd2, hd3⟩ := getNextTile_long s.queue hlong
      have hdsome : (getNextTile s.queue).1.isSome = true := by
        rw [hd1]
        have : 1 < s.queue.tileQueue.length := hlong
        simp [List.getElem?_eq_getElem this]
      refine ⟨?_, ?_, ?_⟩
      · rw [hq, hd3, hd2, head?_tail_eq]
      · intro _
        rw [hq, hd2, hb]
        simp only [List.length_tail, List.length_cons]
        omega
      · intro hx
        rw [hf, hdsome] at hx
        simp at hx
  
theorem countInv_run (hexes : List Cell) (T : Nat) :
    ∀ (cmds : List Cmd) (s : GameState) (o : List Nat),
      countInv T s → countInv T (run hexes s cmds o) := by
  intro cmds
  induction cmds with
  | nil => intro s o h; exact h
  | cons c cs ih =>
    intro s o h
    exact ih _ _ (countInv_step hexes T s c o h)

/-- Claim C5, amended: at every point of a session started from a bag of
`T` tiles, the queue length plus the number of committed board cells
equals `T` while the game is running; after the final tile is placed the
game is finished and the sum is `T + 1`, because the last tile is
committed to the board but `getNextTile` never removes it from the
queue. -/
theorem claim_c5_amended (hexes : List Cell) (bag : List Terrain)
    (counts : TileCount) (cmds : List Cmd) (o os : List Nat) :
    (run hexes (initGame hexes bag counts os) cmds o).queue.tileQueue.length +
        (run hexes (initGame hexes bag counts os) cmds o).board.length =
      bag.length +
        (if (run hexes (initGame hexes bag counts os) cmds o).showFinalBoard
          then 1 else 0) := by
  have hinit : countInv bag.length (initGame hexes bag counts os) := by
    have hs := spawnNewTile_fields hexes (initState bag counts) os
    unfold countInv initGame
    refine ⟨?_, ?_, ?_⟩
    · rw [hs.2.1]; rfl
    · intro _
      rw [hs.2.1, hs.1]
      simp [initState]
    · intro hx
      rw [hs.2.2.1] at hx
      simp [initState] at hx
  have h := countInv_run hexes bag.length cmds _ o hinit
  obtain ⟨_, hrun, hfin⟩ := h
  cases hsf : (run hexes (initGame hexes bag counts os) cmds o).showFinalBoard with
  | false => simpa using hrun hsf
  | true =>
    obtain ⟨h1, _⟩ := hfin hsf
    simpa using h1

/-- Counterexample to claim C5 as stated: a two-tile session, both tiles
hard-dropped; afterwards the board holds both tiles yet the queue still
holds one entry (the already-committed final tile), so queue-remaining
plus committed is 3, not the configured total 2. -/
theorem claim_c5_counterexample :
    (run demoHexes demoStart [.hardDropKey, .hardDropKey] []).queue.tileQueue.length +
          (run demoHexes demoStart [.hardDropKey, .hardDropKey] []).board.length = 3 ∧
      demoBag.length = 2 ∧
      (run demoHexes demoStart [.hardDropKey, .hardDropKey] []).showFinalBoard = true ∧
      (run demoHexes demoStart [.hardDropKey, .hardDropKey] []).queue.tileQueue.length +
          (run demoHexes demoStart [.hardDropKey, .hardDropKey] []).board.length ≠
        demoBag.length := by
  refine ⟨by decide, by decide, by decide, by decide⟩

-- ===== Claim C9: rotation is observationally irrelevant =====

/-- Forget the cosmetic rotation angle: the projection of the game state
that gameplay can observe. -/
def stripRot (s : GameState) : GameState := { s with tileRotation := 0 }

theorem run_cons (hexes : List Cell) (s : GameState) (c : Cmd) (cs : List Cmd)
    (o : List Nat) :
    run hexes s (c :: cs) o = run hexes (step hexes s c o).1 cs (step hexes s c o).2 :=
  rfl

theorem spawnNewTile_stripRot (hexes : List Cell) (s : GameState) (o : List Nat) :
    spawnNewTile hexes (stripRot s) o =
      (stripRot (spawnNewTile hexes s o).1, (spawnNewTile hexes s o).2) := by
  rcases s with ⟨b, pos, rot, spd, fin, qu⟩
  unfold stripRot spawnNewTile
  dsimp only
  split
  · rfl
  · split <;> rfl

theorem placeTile_stripRot (hexes : List Cell) (s : GameState) (q r : Int)
    (o : List Nat) :
    placeTile hexes (stripRot s) q r o =
      (stripRot (placeTile hexes s q r o).1, (placeTile hexes s q r o).2) := by
  rcases s with ⟨b, pos, rot, spd, fin, qu⟩
  cases hc : qu.currentTile with
  | none => simp [placeTile, stripRot, hc]
  | some t =>
    by_cases hm : (q, r) ∈ hexes
    · by_cases ho : occupiedAt b (q, r) = true
      · have h1 : placeTile hexes (stripRot ⟨b, pos, rot, spd, fin, qu⟩) q r o =
            spawnNewTile hexes (stripRot ⟨b, pos, rot, spd, fin, qu⟩) o := by
          simp [placeTile, stripRot, hc, hm, ho]
        have h2 : placeTile hexes ⟨b, pos, rot, spd, fin, qu⟩ q r o =
            spawnNewTile hexes ⟨b, pos, rot, spd, fin, qu⟩ o := by
          simp [placeTile, hc, hm, ho]
        rw [h1, h2]
        exact spawnNewTile_stripRot hexes ⟨b, pos, rot, spd, fin, qu⟩ o
      · have ho' : occupiedAt b (q, r) = false := by
          cases h2 : occupiedAt b (q, r)
          · rfl
          · exact absurd h2 ho
        by_cases hd : (getNextTile qu).1.isSome = true
        · have h1 : placeTile hexes (stripRot ⟨b, pos, rot, spd, fin, qu⟩) q r o =
              spawnNewTile hexes
                (stripRot ⟨((q, r), t) :: b, pos, rot, spd, fin, (getNextTile qu).2⟩) o := by
            simp [placeTile, stripRot, hc, hm, ho', hd]
          have h2 : placeTile hexes ⟨b, pos, rot, spd, fin, qu⟩ q r o =
              spawnNewTile hexes
                ⟨((q, r), t) :: b, pos, rot, spd, fin, (getNextTile qu).2⟩ o := by
            simp [placeTile, hc, hm, ho', hd]
          rw [h1, h2]
          exact spawnNewTile_stripRot hexes
            ⟨((q, r), t) :: b, pos, rot, spd, fin, (getNextTile qu).2⟩ o
        · have h1 : placeTile hexes (stripRot ⟨b, pos, rot, spd, fin, qu⟩) q r o =
              (⟨((q, r), t) :: b, pos, 0, spd, true, (getNextTile qu).2⟩, o) := by
            simp [placeTile, stripRot, hc, hm, ho', hd]
          have h2 : placeTile hexes ⟨b, pos, rot, spd, fin, qu⟩ q r o =
              (⟨((q, r), t) :: b, pos, rot, spd, true, (getNextTile qu).2⟩, o) := by
            simp [placeTile, hc, hm, ho', hd]
          rw [h1, h2]
          rfl
    · have h1 : placeTile hexes (stripRot ⟨b, pos, rot, spd, fin, qu⟩) q r o =
          (stripRot ⟨b, pos, rot, spd, fin, qu⟩, o) := by
        simp [placeTile, stripRot, hc, hm]
      have h2 : placeTile hexes ⟨b, pos, rot, spd, fin, qu⟩ q r o =
          (⟨b, pos, rot, spd, fin, qu⟩, o) := by
        simp [placeTile, hc, hm]
      rw [h1, h2]

theorem moveToColumn_stripRot (hexes : List Cell) (s : GameState) (newQ : Int) :
    moveToColumn hexes (stripRot s) newQ = stripRot (moveToColumn hexes s newQ) := by
  rcases s with ⟨b, pos, rot, spd, fin, qu⟩
  rw [moveToColumn_eq, moveToColumn_eq]
  dsimp only [stripRot]
  by_cases h : moveAllowedTo hexes b pos newQ
  · rw [if_pos h, if_pos h]
  · rw [if_neg h, if_neg h]

theorem step_stripRot (hexes : List Cell) (s : GameState) (c : Cmd) (o : List Nat)
    (hne : c ≠ Cmd.rotate) :
    step hexes (stripRot s) c o =
      (stripRot (step hexes s c o).1, (step hexes s c o).2) := by
  cases c with
  | rotate => exact absurd rfl hne
  | softDropOff => rfl
  | rampTick => rfl
  | moveLeft =>
    cases hc : s.queue.currentTile with
    | none =>
      have h1 : step hexes (stripRot s) .moveLeft o = (stripRot s, o) := by
        simp [step, stripRot, hc]
      have h2 : step hexes s .moveLeft o = (s, o) := by simp [step, hc]
      rw [h1, h2]
    | some t =>
      cases hf : s.showFinalBoard with
      | true =>
        have h1 : step hexes (stripRot s) .moveLeft o = (stripRot s, o) := by
          simp [step, stripRot, hc, hf]
        have h2 : step hexes s .moveLeft o = (s, o) := by simp [step, hc, hf]
        rw [h1, h2]
      | false =>
        have h1 : step hexes (stripRot s) .moveLeft o =
            (moveToColumn hexes (stripRot s) (s.tilePosition.1 - 1), o) := by
          simp [step, stripRot, hc, hf]
        have h2 : step hexes s .moveLeft o =
            (moveToColumn hexes s (s.tilePosition.1 - 1), o) := by
          simp [step, hc, hf]
        rw [h1, h2, moveToColumn_stripRot]
  | moveRight =>
    cases hc : s.queue.currentTile with
    | none =>
      have h1 : step hexes (stripRot s) .moveRight o = (stripRot s, o) := by
        simp [step, stripRot, hc]
      have h2 : step hexes s .moveRight o = (s, o) := by simp [step, hc]
      rw [h1, h2]
    | some t =>
      cases hf : s.showFinalBoard with
      | true =>
        have h1 : step hexes (stripRot s) .moveRight o = (stripRot s, o) := by
          simp [step, stripRot, hc, hf]
        have h2 : step hexes s .moveRight o = (s, o) := by simp [step, hc, hf]
        rw [h1, h2]
      | false =>
        have h1 : step hexes (stripRot s) .moveRight o =
            (moveToColumn hexes (stripRot s) (s.tilePosition.1 + 1), o) := by
          simp [step, stripRot, hc, hf]
        have h2 : step hexes s .moveRight o =
            (moveToColumn hexes s (s.tilePosition.1 + 1), o) := by
          simp [step, hc, hf]
        rw [h1, h2, moveToColumn_stripRot]
  | softDropOn =>
    cases hc : s.queue.currentTile with
    | none =>
      have h1 : step hexes (stripRot s) .softDropOn o = (stripRot s, o) := by
        simp [step, stripRot, hc]
      have h2 : step hexes s .softDropOn o = (s, o) := by simp [step, hc]
      rw [h1, h2]
    | some t =>
      cases hf : s.showFinalBoard with
      | true =>
        have h1 : step hexes (stripRot s) .softDropOn o = (stripRot s, o) := by
          simp [step, stripRot, hc, hf]
        have h2 : step hexes s .softDropOn o = (s, o) := by simp [step, hc, hf]
        rw [h1, h2]
      | false =>
        have h1 : step hexes (stripRot s) .softDropOn o =
            ({ stripRot s with dropSpeed := 100 }, o) := by
          simp [step, stripRot, hc, hf]
        have h2 : step hexes s .softDropOn o = ({ s with dropSpeed := 100 }, o) := by
          simp [step, hc, hf]
        rw [h1, h2]
        rfl
  | hardDropKey =>
    cases hc : s.queue.currentTile with
    | none =>
      have h1 : step hexes (stripRot s) .hardDropKey o = (stripRot s, o) := by
        simp [step, hardDrop, stripRot, hc]
      have h2 : step hexes s .hardDropKey o = (s, o) := by simp [step, hardDrop, hc]
      rw [h1, h2]
    | some t =>
      cases hf : s.showFinalBoard with
      | true =>
        have h1 : step hexes (stripRot s) .hardDropKey o = (stripRot s, o) := by
          simp [step, hardDrop, stripRot, hc, hf]
        have h2 : step hexes s .hardDropKey o = (s, o) := by
          simp [step, hardDrop, hc, hf]
        rw [h1, h2]
      | false =>
        cases hcol : colCells hexes s.tilePosition.1 with
        | nil =>
          have h1 : step hexes (stripRot s) .hardDropKey o = (stripRot s, o) := by
            simp [step, hardDrop, stripRot, hc, hf, hcol]
          have h2 : step hexes s .hardDropKey o = (s, o) := by
            simp [step, hardDrop, hc, hf, hcol]
          rw [h1, h2]
        | cons cc ccs =>
          have h1 : step hexes (stripRot s) .hardDropKey o =
              placeTile hexes (stripRot s) s.tilePosition.1
                (dropTargetR s.board cc ccs) o := by
            simp [step, hardDrop, stripRot, hc, hf, hcol]
          have h2 : step hexes s .hardDropKey o =
              placeTile hexes s s.tilePosition.1 (dropTargetR s.board cc ccs) o := by
            simp [step, hardDrop, hc, hf, hcol]
          rw [h1, h2, placeTile_stripRot]
  | autoTick =>
    cases hc : s.queue.currentTile with
    | none =>
      have h1 : step hexes (stripRot s) .autoTick o = (stripRot s, o) := by
        simp [step, autoDropTile, stripRot, hc]
      have h2 : step hexes s .autoTick o = (s, o) := by simp [step, autoDropTile, hc]
      rw [h1, h2]
    | some t =>
      cases hf : s.showFinalBoard with
      | true =>
        have h1 : step hexes (stripRot s) .autoTick o = (stripRot s, o) := by
          simp [step, autoDropTile, stripRot, hc, hf]
        have h2 : step hexes s .autoTick o = (s, o) := by
          simp [step, autoDropTile, hc, hf]
        rw [h1, h2]
      | false =>
        cases hcol : colCells hexes s.tilePosition.1 with
        | nil =>
          have h1 : step hexes (stripRot s) .autoTick o = (stripRot s, o) := by
            simp [step, autoDropTile, stripRot, hc, hf, hcol]
          have h2 : step hexes s .autoTick o = (s, o) := by
            simp [step, autoDropTile, hc, hf, hcol]
          rw [h1, h2]
        | cons cc ccs =>
          by_cases hge : s.tilePosition.2 + 1 ≥ dropTargetR s.board cc ccs
          · have h1 : step hexes (stripRot s) .autoTick o =
                placeTile hexes (stripRot s) s.tilePosition.1
                  (dropTargetR s.board cc ccs) o := by
              simp [step, autoDropTile, stripRot, hc, hf, hcol, hge]
            have h2 : step hexes s .autoTick o =
                placeTile hexes s s.tilePosition.1 (dropTargetR s.board cc ccs) o := by
              simp [step, autoDropTile, hc, hf, hcol, hge]
            rw [h1, h2, placeTile_stripRot]
          · have h1 : step hexes (stripRot s) .autoTick o =
                ({ stripRot s with
                    tilePosition := (s.tilePosition.1, s.tilePosition.2 + 1) }, o) := by
              simp [step, autoDropTile, stripRot, hc, hf, hcol, hge]
            have h2 : step hexes s .autoTick o =
                ({ s with
                    tilePosition := (s.tilePosition.1, s.tilePosition.2 + 1) }, o) := by
              simp [step, autoDropTile, hc, hf, hcol, hge]
            rw [h1, h2]
            rfl

theorem run_stripRot (hexes : List Cell) :
    ∀ (cs : List Cmd) (s : GameState) (o : List Nat),
      run hexes (stripRot s) (cs.filter (fun c => c ≠ Cmd.rotate)) o =
        stripRot (run hexes s cs o) := by
  intro cs
  induction cs with
  | nil => intro s o; rfl
  | cons c cs ih =>
    intro s o
    by_cases hc : c = Cmd.rotate
    · subst hc
      have hfilter : ((Cmd.rotate :: cs).filter (fun c => c ≠ Cmd.rotate)) =
          cs.filter (fun c => c ≠ Cmd.rotate) := by simp
      rw [hfilter, run_cons]
      have hrot : ∃ s', step hexes s Cmd.rotate o = (s', o) ∧ stripRot s' = stripRot s := by
        cases hcur : s.queue.currentTile with
        | none => exact ⟨s, by simp [step, hcur], rfl⟩
        | some t =>
          cases hf : s.showFinalBoard with
          | true => exact ⟨s, by simp [step, hcur, hf], rfl⟩
          | false =>
            refine ⟨{ s with tileRotation := (s.tileRotation + 60) % 360 },
              by simp [step, hcur, hf], rfl⟩
      obtain ⟨s', hs1, hs2⟩ := hrot
      rw [hs1]
      rw [← ih s' o, hs2]
    · have hfilter : ((c :: cs).filter (fun x => x ≠ Cmd.rotate)) =
          c :: cs.filter (fun x => x ≠ Cmd.rotate) := by simp [hc]
      rw [hfilter, run_cons, run_cons, step_stripRot hexes s c o hc]
      exact ih (step hexes s c o).1 (step hexes s c o).2

/-- Claim C9: the rotation angle is observationally irrelevant.  Two runs
whose start states agree up to rotation and whose command sequences agree
once every rotate command is deleted (rotate commands interleaved anywhere,
in any number) produce states that agree on everything except the stored
angle: the same board contents, the same placement decisions and
collision/resting-row outcomes, the same queue, position, speed and
finished flag. -/
theorem claim_c9_rotation_irrelevant (hexes : List Cell) (s1 s2 : GameState)
    (cs1 cs2 : List Cmd) (o : List Nat)
    (hs : stripRot s1 = stripRot s2)
    (hcs : cs1.filter (fun c => c ≠ Cmd.rotate) =
      cs2.filter (fun c => c ≠ Cmd.rotate)) :
    stripRot (run hexes s1 cs1 o) = stripRot (run hexes s2 cs2 o) := by
  rw [← run_stripRot hexes cs1 s1 o, ← run_stripRot hexes cs2 s2 o, hs, hcs]

/-- Witness for C9: one run rotates before the drop, the other rotates
twice after it, from start states differing only in the stored angle. -/
theorem claim_c9_rotation_irrelevant_witness :
    stripRot (run demoHexes demoStart [Cmd.rotate, Cmd.hardDropKey] []) =
      stripRot (run demoHexes { demoStart with tileRotation := 120 }
        [Cmd.hardDropKey, Cmd.rotate, Cmd.rotate] []) :=
  claim_c9_rotation_irrelevant demoHexes demoStart
    { demoStart with tileRotation := 120 }
    [Cmd.rotate, Cmd.hardDropKey] [Cmd.hardDropKey, Cmd.rotate, Cmd.rotate] []
    (by decide) (by decide)

-- ===== Claim C4: columns never contain gaps =====

/-- In every column, every land cell lying below (greater `r`) an
occupied land cell is itself occupied: the occupied rows of each column
form a contiguous block growing upward from the column's bottom-most
land row. -/
def NoGaps (hexes : List Cell) (b : Board) : Prop :=
  ∀ c ∈ hexes, ∀ c' ∈ hexes, c.1 = c'.1 → c.2 < c'.2 →
    occupiedAt b c = true → occupiedAt b c' = true

theorem pairwise_lt_of_le_nodup (q : Int) :
    ∀ (l : List Cell), l.Pairwise (fun a b : Cell => a.2 ≤ b.2) → l.Nodup →
      (∀ x ∈ l, x.1 = q) → l.Pairwise (fun a b : Cell => a.2 < b.2) := by
  intro l
  induction l with
  | nil => intro _ _ _; exact List.Pairwise.nil
  | cons c t ih =>
    intro hle hnd hq
    rw [List.pairwise_cons] at hle ⊢
    rw [List.nodup_cons] at hnd
    refine ⟨?_, ih hle.2 hnd.2 (fun x hx => hq x (List.mem_cons_of_mem c hx))⟩
    intro b hb
    have h1 := hle.1 b hb
    have hcq := hq c (List.mem_cons_self c t)
    have hbq := hq b (List.mem_cons_of_mem c hb)
    rcases lt_or_eq_of_le h1 with h | h
    · exact h
    · exfalso
      apply hnd.1
      have hcb : c = b := Prod.ext (hcq.trans hbq.symm) h
      rw [hcb]
      exact hb

theorem colCells_pairwise_lt (hexes : List Cell) (q : Int) (hnd : hexes.Nodup) :
    (colCells hexes q).Pairwise (fun a b : Cell => a.2 < b.2) := by
  have hsorted := colCells_sorted hexes q
  have hperm := List.perm_insertionSort (fun a b : Cell => a.2 ≤ b.2)
    (hexes.filter (fun h => h.1 = q))
  have hnd2 : (colCells hexes q).Nodup := by
    have hf := List.Nodup.filter (fun h => decide (h.1 = q)) hnd
    exact (hperm.nodup_iff).mpr hf
  exact pairwise_lt_of_le_nodup q _ hsorted hnd2
    (fun x hx => ((colCells_mem hexes q x).mp hx).2)

theorem restScan_spec (hexes : List Cell) (b : Board) (q : Int)
    (hNG : NoGaps hexes b) :
    ∀ (cs : List Cell) (prev : Cell),
      occupiedAt b prev = false →
      (∀ x ∈ prev :: cs, x ∈ hexes ∧ x.1 = q) →
      (prev :: cs).Pairwise (fun a b : Cell => a.2 < b.2) →
      ∃ pr ∈ prev :: cs, restScan b prev cs = pr.2 ∧ occupiedAt b pr = false ∧
        ∀ x ∈ prev :: cs, pr.2 < x.2 → occupiedAt b x = true := by
  intro cs
  induction cs with
  | nil =>
    intro prev hocc hmem hpw
    refine ⟨prev, List.mem_cons_self prev [], rfl, hocc, ?_⟩
    intro x hx hlt
    rcases List.mem_cons.mp hx with rfl | hx
    · exact absurd hlt (lt_irrefl _)
    · simp at hx
  | cons c cs ih =>
    intro prev hocc hmem hpw
    by_cases hc : occupiedAt b c = true
    · refine ⟨prev, List.mem_cons_self _ _, ?_, hocc, ?_⟩
      · simp [restScan, hc]
      · intro x hx hlt
        rcases List.mem_cons.mp hx with rfl | hx2
        · exact absurd hlt (lt_irrefl _)
        · rcases List.mem_cons.mp hx2 with rfl | hx3
          · exact hc
          · have hpw2 := hpw
            rw [List.pairwise_cons] at hpw2
            have hpw3 := hpw2.2
            rw [List.pairwise_cons] at hpw3
            have hcx : c.2 < x.2 := hpw3.1 x hx3
            have hcmem := hmem c (by simp)
            have hxmem := hmem x (by simp [hx3])
            exact hNG c hcmem.1 x hxmem.1 (hcmem.2.trans hxmem.2.symm) hcx hc
    · have hc2 : occupiedAt b c = false := by
        cases h2 : occupiedAt b c
        · rfl
        · exact absurd h2 hc
      have hmem2 : ∀ x ∈ c :: cs, x ∈ hexes ∧ x.1 = q := fun x hx =>
        hmem x (List.mem_cons_of_mem prev hx)
      have hpw2 : (c :: cs).Pairwise (fun a b : Cell => a.2 < b.2) := by
        rw [List.pairwise_cons] at hpw
        exact hpw.2
      obtain ⟨pr, hprmem, hres, hprocc, hall⟩ := ih c hc2 hmem2 hpw2
      refine ⟨pr, List.mem_cons_of_mem prev hprmem, ?_, hprocc, ?_⟩
      · simp [restScan, hc2, hres]
      · intro x hx hlt
        rcases List.mem_cons.mp hx with rfl | hx2
        · exfalso
          rw [List.pairwise_cons] at hpw
          have hlt1 : x.2 < c.2 := hpw.1 c (by simp)
          have hlt2 : c.2 ≤ pr.2 := by
            rcases List.mem_cons.mp hprmem with rfl | hpr2
            · exact le_refl _
            · rw [List.pairwise_cons] at hpw2
              exact le_of_lt (hpw2.1 pr hpr2)
          omega
        · exact hall x hx2 hlt

theorem occupiedAt_cons (b : Board) (e : Cell × Terrain) (c : Cell) :
    occupiedAt (e :: b) c = if e.1 = c then true else occupiedAt b c := by
  simp only [occupiedAt, lookupCell]
  split <;> simp

theorem noGaps_insert (hexes : List Cell) (b : Board) (q tr : Int) (t : Terrain)
    (hNG : NoGaps hexes b)
    (hbelow : ∀ x ∈ hexes, x.1 = q → tr < x.2 → occupiedAt b x = true) :
    NoGaps hexes (((q, tr), t) :: b) := by
  intro c hcmem c' hcmem' hq hlt hocc
  rw [occupiedAt_cons] at hocc
  rw [occupiedAt_cons]
  by_cases he' : ((q, tr) : Cell) = c'
  · rw [if_pos he']
  · rw [if_neg he']
    by_cases he : ((q, tr) : Cell) = c
    · have hcq : c'.1 = q := by rw [← hq, ← he]
      apply hbelow c' hcmem' hcq
      rw [← he] at hlt
      exact hlt
    · rw [if_neg he] at hocc
      exact hNG c hcmem c' hcmem' hq hlt hocc

theorem dropTarget_noGaps (hexes : List Cell) (b : Board) (q : Int) (t : Terrain)
    (hnd : hexes.Nodup) (hNG : NoGaps hexes b) (cc : Cell) (ccs : List Cell)
    (hcol : colCells hexes q = cc :: ccs)
    (hmem : (q, dropTargetR b cc ccs) ∈ hexes)
    (_hocc : occupiedAt b (q, dropTargetR b cc ccs) = false) :
    NoGaps hexes (((q, dropTargetR b cc ccs), t) :: b) := by
  apply noGaps_insert hexes b q (dropTargetR b cc ccs) t hNG
  intro x hx hxq hlt
  by_cases hc : occupiedAt b cc = true
  · exfalso
    unfold dropTargetR at hmem
    rw [if_pos hc] at hmem
    have hmm : ((q, cc.2 - 1) : Cell) ∈ colCells hexes q :=
      (colCells_mem _ _ _).mpr ⟨hmem, rfl⟩
    have hle := colCells_head_le hexes q cc ccs hcol _ hmm
    simp only at hle
    omega
  · have hc2 : occupiedAt b cc = false := by
      cases h2 : occupiedAt b cc
      · rfl
      · exact absurd h2 hc
    have htr : dropTargetR b cc ccs = restScan b cc ccs := by
      unfold dropTargetR
      rw [if_neg hc]
    have hmemall : ∀ y ∈ cc :: ccs, y ∈ hexes ∧ y.1 = q := by
      intro y hy
      rw [← hcol] at hy
      exact (colCells_mem _ _ _).mp hy
    have hpw : (cc :: ccs).Pairwise (fun a b : Cell => a.2 < b.2) := by
      rw [← hcol]
      exact colCells_pairwise_lt hexes q hnd
    obtain ⟨pr, hprmem, hres, hprocc, hall⟩ :=
      restScan_spec hexes b q hNG ccs cc hc2 hmemall hpw
    have hxcol : x ∈ cc :: ccs := by
      rw [← hcol]
      exact (colCells_mem _ _ _).mpr ⟨hx, hxq⟩
    apply hall x hxcol
    rw [htr, hres] at hlt
    exact hlt

theorem noGaps_step (hexes : List Cell) (s : GameState) (c : Cmd) (o : List Nat)
    (hnd : hexes.Nodup) (hNG : NoGaps hexes s.board) :
    NoGaps hexes (step hexes s c o).1.board := by
  rcases step_effect hexes s c o with ⟨hb, _, _⟩ |
    ⟨_, t, q, r, cc, ccs, _, hcol, htr, hm, ho, hb, _, _⟩
  · rw [hb]
    exact hNG
  · rw [hb]
    subst htr
    exact dropTarget_noGaps hexes s.board q t hnd hNG cc ccs hcol hm ho

theorem noGaps_run (hexes : List Cell) (hnd : hexes.Nodup) :
    ∀ (cmds : List Cmd) (s : GameState) (o : List Nat),
      NoGaps hexes s.board → NoGaps hexes (run hexes s cmds o).board := by
  intro cmds
  induction cmds with
  | nil => intro s o h; exact h
  | cons c cs ih =>
    intro s o h
    exact ih _ _ (noGaps_step hexes s c o hnd h)

/-- Claim C4: starting from an initially empty board, after any sequence
of events (auto-drop ticks, hard drops, and any other inputs), every
column's occupied land cells form a contiguous block: no land cell below
an occupied cell of the same column is ever free, so each column grows
upward from its bottom-most land row without gaps. -/
theorem claim_c4_column_contiguity (hexes : List Cell) (hnd : hexes.Nodup)
    (bag : List Terrain) (counts : TileCount) (cmds : List Cmd) (o os : List Nat) :
    NoGaps hexes (run hexes (initGame hexes bag counts os) cmds o).board := by
  apply noGaps_run hexes hnd
  have hs := spawnNewTile_fields hexes (initState bag counts) os
  show NoGaps hexes (initGame hexes bag counts os).board
  unfold initGame
  rw [hs.1]
  intro c _ c' _ _ _ hocc
  simp [occupiedAt, initState, lookupCell] at hocc

/-- Witness for C4 on the classic board with two drops. -/
theorem claim_c4_column_contiguity_witness :
    (generateCatanBoard 2).Nodup ∧
      NoGaps (generateCatanBoard 2)
        (run (generateCatanBoard 2)
          (initGame (generateCatanBoard 2) demoBag demoCounts [1])
          [Cmd.hardDropKey, Cmd.autoTick] [0]).board :=
  ⟨by decide, claim_c4_column_contiguity (generateCatanBoard 2) (by decide)
    demoBag demoCounts [Cmd.hardDropKey, Cmd.autoTick] [0] [1]⟩

-- ===== Claim C2: end-of-game number assignment =====

/-- The cell-to-number map built at game end (a JS `Map<string, number>`
keyed by the cell). -/
abbrev NumMap := List (Cell × Nat)

def lookupNum : NumMap → Cell → Option Nat
  | [], _ => none
  | e :: es, c => if e.1 = c then some e.2 else lookupNum es c

/-- `Map.set`: replace the entry in place when the key is present,
append otherwise. -/
def numSet : NumMap → Cell → Nat → NumMap
  | [], c, n => [(c, n)]
  | e :: es, c, n => if e.1 = c then (c, n) :: es else e :: numSet es c n

/-- The eligible cells (`numberTiles`): iterate the final board in
insertion order, keeping every occupied cell whose terrain is neither
desert nor water (gold is eligible). -/
def numberTilesOf (b : Board) : List Cell :=
  b.reverse.filterMap (fun e =>
    if e.2 ≠ Terrain.desert ∧ e.2 ≠ Terrain.water then some e.1 else none)

/-- The classic 18-token distribution used for `mapSize === 2`. -/
def classicNumbers : List Nat := [2, 3, 3, 4, 4, 5, 5, 6, 6, 8, 8, 9, 9, 10, 10, 11, 11, 12]

/-- The 23-token base distribution used for larger maps. -/
def baseNumbers : List Nat :=
  [2, 3, 3, 4, 4, 4, 5, 5, 5, 6, 6, 8, 8, 9, 9, 9, 10, 10, 10, 11, 11, 11, 12]

/-- The balanced extension cycle (7 excluded). -/
def additionalNumbers : List Nat := [3, 4, 5, 6, 8, 9, 10, 11]

/-- One pass of the inner `for` loop: push each balanced number while the
distribution is still short. -/
def addBalanced (needed : Nat) (l : List Nat) : List Nat :=
  additionalNumbers.foldl (fun acc n => if acc.length < needed then acc ++ [n] else acc) l

/-- The `while (length < needed)` loop, fuelled: each pass adds at least
one number while short, so `needed` passes always suffice. -/
def extendLoop : Nat → Nat → List Nat → List Nat
  | 0, _, l => l
  | fuel + 1, needed, l =>
    if l.length < needed then extendLoop fuel needed (addBalanced needed l) else l

/-- The number distribution finally used: the classic list for size 2,
the extended base list otherwise, in both cases sliced to exactly the
needed length. -/
def numberDistribution (mapSize : Int) (needed : Nat) : List Nat :=
  (if mapSize = 2 then classicNumbers else extendLoop needed needed baseNumbers).take needed

/-- `getAdjacentHexes`: the six axial neighbours. -/
def adjacentCells (c : Cell) : List Cell :=
  [(c.1 + 1, c.2), (c.1 - 1, c.2), (c.1, c.2 + 1), (c.1, c.2 - 1),
   (c.1 + 1, c.2 - 1), (c.1 - 1, c.2 + 1)]

/-- `isValidPlacement`: non-hot numbers are always placeable; a hot
number (6 or 8) needs its tile to exist among the eligible cells and no
axial neighbour already holding 6 or 8. -/
def isValidPlacement (tiles : List Cell) (c : Cell) (n : Nat) (placed : NumMap) : Bool :=
  if n ≠ 6 ∧ n ≠ 8 then true
  else if c ∈ tiles then
    (adjacentCells c).all (fun a =>
      match lookupNum placed a with
      | some m => decide (m ≠ 6 ∧ m ≠ 8)
      | none => true)
  else false

/-- The placement loop for one hot number: up to the given number of
random trials (one oracle value each); on success the tile is removed
from the available pool; when the attempt budget is exhausted the first
available tile is taken regardless of adjacency.  The empty-pool guard is
unreachable in the component (there are never more hot tokens than
eligible cells) and mirrors the fact that the code never runs there. -/
def placeHotLoop (allTiles : List Cell) (num : Nat) :
    Nat → List Cell → NumMap → List Nat → NumMap × List Cell × List Nat
  | 0, tiles, placed, o =>
    match tiles with
    | [] => (placed, [], o)
    | t :: rest => (numSet placed t num, rest, o)
  | a + 1, tiles, placed, o =>
    if tiles.length = 0 then (placed, tiles, o)
    else
      let idx := o.headD 0 % tiles.length
      let t := tiles.getD idx (0, 0)
      if isValidPlacement allTiles t num placed then
        (numSet placed t num, tiles.eraseIdx idx, o.tail)
      else placeHotLoop allTiles num a tiles placed o.tail

/-- Place all hot numbers in distribution order, 100 trials each. -/
def placeHots (allTiles : List Cell) :
    List Nat → NumMap → List Cell → List Nat → NumMap × List Cell × List Nat
  | [], m, tiles, o => (m, tiles, o)
  | n :: ns, m, tiles, o =>
    let r := placeHotLoop allTiles n 100 tiles m o
    placeHots allTiles ns r.1 r.2.1 r.2.2

/-- The `sort(() => Math.random() - 0.5)` shuffle of the non-hot numbers,
modelled as an oracle-chosen permutation (selection by random index);
this realises every permutation a random comparator sort can produce. -/
def selectPerm : Nat → List Nat → List Nat → List Nat × List Nat
  | 0, l, o => (l, o)
  | fuel + 1, l, o =>
    match l with
    | [] => ([], o)
    | _ :: _ =>
      let idx := o.headD 0 % l.length
      let rest := selectPerm fuel (l.eraseIdx idx) o.tail
      (l.getD idx 0 :: rest.1, rest.2)

/-- Assign the shuffled non-hot numbers pairwise to the remaining
available tiles (`for i < min(both lengths)`). -/
def assignOthers (tiles : List Cell) (nums : List Nat) (m : NumMap) : NumMap :=
  (tiles.zip nums).foldl (fun acc p => numSet acc p.1 p.2) m

/-- The last-resort values of the safety pass. -/
def fallbackNumbers : List Nat := [3, 4, 5, 9, 10, 11]

/-- The safety pass: every eligible cell still missing a number receives
one, drawn from the multiplicities of the distribution not yet used up,
or from the fixed fallback set when those are exhausted. -/
def safetyFill (dist : List Nat) : List Cell → NumMap → List Nat → NumMap
  | [], m, _ => m
  | t :: ts, m, o =>
    if (lookupNum m t).isSome then safetyFill dist ts m o
    else
      let used := m.map Prod.snd
      let remaining := dist.filter (fun n => used.count n < dist.count n)
      match remaining with
      | [] =>
        safetyFill dist ts
          (numSet m t (fallbackNumbers.getD (o.headD 0 % fallbackNumbers.length) 0)) o.tail
      | _ :: _ =>
        safetyFill dist ts
          (numSet m t (remaining.getD (o.headD 0 % remaining.length) 0)) o.tail

/-- The whole number-assignment step run on the finished board. -/
def assignNumbers (b : Board) (mapSize : Int) (o : List Nat) : NumMap :=
  let tiles := numberTilesOf b
  let dist := numberDistribution mapSize tiles.length
  let hots := dist.filter (fun n => n = 6 ∨ n = 8)
  let others := dist.filter (fun n => ¬(n = 6 ∨ n = 8))
  let afterHots := placeHots tiles hots [] tiles o
  let shuffled := selectPerm others.length others afterHots.2.2
  let afterOthers := assignOthers afterHots.2.1 shuffled.1 afterHots.1
  safetyFill dist tiles afterOthers shuffled.2

theorem lookupNum_numSet_isSome (m : NumMap) (c : Cell) (n : Nat) (c' : Cell) :
    (lookupNum (numSet m c n) c').isSome = true ↔
      c' = c ∨ (lookupNum m c').isSome = true := by
  induction m with
  | nil =>
    simp only [numSet, lookupNum]
    constructor
    · intro hsome
      by_cases h : c = c'
      · exact Or.inl h.symm
      · rw [if_neg h] at hsome
        simp at hsome
    · rintro (rfl | hfalse)
      · simp
      · simp at hfalse
  | cons e es ih =>
    simp only [numSet]
    by_cases h : e.1 = c
    · rw [if_pos h]
      simp only [lookupNum]
      by_cases h2 : c = c'
      · simp [h2]
      · rw [if_neg h2]
        have h3 : ¬e.1 = c' := by rw [h]; exact h2
        have h4 : ¬c' = c := fun hh => h2 hh.symm
        simp [lookupNum, h3, h4]
    · rw [if_neg h]
      simp only [lookupNum]
      by_cases h2 : e.1 = c'
      · simp [h2]
      · simp [h2, ih]

theorem lookupNum_mono (m : NumMap) (c c' : Cell) (n : Nat)
    (h : (lookupNum m c').isSome = true) :
    (lookupNum (numSet m c n) c').isSome = true :=
  (lookupNum_numSet_isSome m c n c').mpr (Or.inr h)

theorem getD_mod_mem {α : Type} (l : List α) (d : α) (k : Nat) (h : l ≠ []) :
    l.getD (k % l.length) d ∈ l := by
  have hlen : 0 < l.length := List.length_pos.mpr h
  have hlt : k % l.length < l.length := Nat.mod_lt _ hlen
  rw [List.getD_eq_getElem?_getD, List.getElem?_eq_getElem hlt]
  simp only [Option.getD_some]
  exact List.getElem_mem hlt

/-- Every key of the map lies in the tile list `T`. -/
def domSub (m : NumMap) (T : List Cell) : Prop :=
  ∀ c : Cell, (lookupNum m c).isSome = true → c ∈ T

theorem domSub_numSet (m : NumMap) (T : List Cell) (c : Cell) (n : Nat)
    (hm : domSub m T) (hc : c ∈ T) : domSub (numSet m c n) T := by
  intro c' h
  rcases (lookupNum_numSet_isSome m c n c').mp h with rfl | h2
  · exact hc
  · exact hm c' h2

theorem placeHotLoop_dom (allT T : List Cell) (num : Nat) :
    ∀ (a : Nat) (tiles : List Cell) (m : NumMap) (o : List Nat),
      domSub m T → tiles ⊆ T →
      domSub (placeHotLoop allT num a tiles m o).1 T ∧
        (placeHotLoop allT num a tiles m o).2.1 ⊆ T := by
  intro a
  induction a with
  | zero =>
    intro tiles m o hm ht
    cases tiles with
    | nil => exact ⟨hm, ht⟩
    | cons t rest =>
      refine ⟨domSub_numSet m T t num hm (ht (List.mem_cons_self t rest)), ?_⟩
      exact fun x hx => ht (List.mem_cons_of_mem t hx)
  | succ a ih =>
    intro tiles m o hm ht
    by_cases hlen : tiles.length = 0
    · simp only [placeHotLoop, if_pos hlen]
      exact ⟨hm, ht⟩
    · simp only [placeHotLoop, if_neg hlen]
      have htne : tiles ≠ [] := by
        intro hh
        rw [hh] at hlen
        exact hlen rfl
      by_cases hvalid : isValidPlacement allT
          (tiles.getD (o.headD 0 % tiles.length) (0, 0)) num m = true
      · rw [if_pos hvalid]
        refine ⟨domSub_numSet m T _ num hm
          (ht (getD_mod_mem tiles (0, 0) (o.headD 0) htne)), ?_⟩
        exact fun x hx => ht (List.eraseIdx_subset _ _ hx)
      · rw [if_neg hvalid]
        exact ih tiles m o.tail hm ht

theorem placeHots_dom (allT T : List Cell) :
    ∀ (ns : List Nat) (m : NumMap) (tiles : List Cell) (o : List Nat),
      domSub m T → tiles ⊆ T →
      domSub (placeHots allT ns m tiles o).1 T ∧
        (placeHots allT ns m tiles o).2.1 ⊆ T := by
  intro ns
  induction ns with
  | nil => intro m tiles o hm ht; exact ⟨hm, ht⟩
  | cons n ns ih =>
    intro m tiles o hm ht
    simp only [placeHots]
    obtain ⟨h1, h2⟩ := placeHotLoop_dom allT T n 100 tiles m o hm ht
    exact ih _ _ _ h1 h2

theorem foldl_numSet_dom (T : List Cell) :
    ∀ (ps : List (Cell × Nat)) (m : NumMap),
      domSub m T → (∀ p ∈ ps, p.1 ∈ T) →
      domSub (ps.foldl (fun acc p => numSet acc p.1 p.2) m) T := by
  intro ps
  induction ps with
  | nil => intro m hm _; exact hm
  | cons p ps ih =>
    intro m hm hp
    simp only [List.foldl_cons]
    exact ih _ (domSub_numSet m T p.1 p.2 hm (hp p (List.mem_cons_self p ps)))
      (fun x hx => hp x (List.mem_cons_of_mem p hx))

theorem safetyFill_dom (dist : List Nat) (T : List Cell) :
    ∀ (ts : List Cell) (m : NumMap) (o : List Nat),
      domSub m T → ts ⊆ T → domSub (safetyFill dist ts m o) T := by
  intro ts
  induction ts with
  | nil => intro m o hm _; exact hm
  | cons t ts ih =>
    intro m o hm ht
    have htT : t ∈ T := ht (List.mem_cons_self t ts)
    have hts : ts ⊆ T := fun x hx => ht (List.mem_cons_of_mem t hx)
    simp only [safetyFill]
    by_cases hsome : (lookupNum m t).isSome = true
    · rw [if_pos hsome]
      exact ih m o hm hts
    · rw [if_neg hsome]
      split
    
      · exact ih _ _ (domSub_numSet m T t _ hm htT) hts
      · exact ih _ _ (domSub_numSet m T t _ hm htT) hts

theorem safetyFill_mono (dist : List Nat) :
    ∀ (ts : List Cell) (m : NumMap) (o : List Nat) (c : Cell),
      (lookupNum m c).isSome = true →
      (lookupNum (safetyFill dist ts m o) c).isSome = true := by
  intro ts
  induction ts with
  | nil => intro m o c h; exact h
  | cons t ts ih =>
    intro m o c h
    simp only [safetyFill]
    by_cases hsome : (lookupNum m t).isSome = true
    · rw [if_pos hsome]
      exact ih m o c h
    · rw [if_neg hsome]
      split
      · exact ih _ _ c (lookupNum_mono m t c _ h)
      · exact ih _ _ c (lookupNum_mono m t c _ h)

theorem safetyFill_present (dist : List Nat) :
    ∀ (ts : List Cell) (m : NumMap) (o : List Nat) (c : Cell), c ∈ ts →
      (lookupNum (safetyFill dist ts m o) c).isSome = true := by
  intro ts
  induction ts with
  | nil => intro m o c h; simp at h
  | cons t ts ih =>
    intro m o c h
    rcases List.mem_cons.mp h with rfl | h2
    · simp only [safetyFill]
      by_cases hsome : (lookupNum m c).isSome = true
      · rw [if_pos hsome]
        exact safetyFill_mono dist ts m o c hsome
      · rw [if_neg hsome]
        split
        · exact safetyFill_mono dist ts _ o.tail c
            ((lookupNum_numSet_isSome m c _ c).mpr (Or.inl rfl))
        · exact safetyFill_mono dist ts _ o.tail c
            ((lookupNum_numSet_isSome m c _ c).mpr (Or.inl rfl))
    · simp only [safetyFill]
      by_cases hsome : (lookupNum m t).isSome = true
      · rw [if_pos hsome]
        exact ih m o c h2
      · rw [if_neg hsome]
        split
        · exact ih _ _ c h2
        · exact ih _ _ c h2

theorem numSet_keys_sub (c : Cell) (n : Nat) :
    ∀ (m : NumMap), ∀ x ∈ (numSet m c n).map Prod.fst, x = c ∨ x ∈ m.map Prod.fst := by
  intro m
  induction m with
  | nil =>
    intro x hx
    simp [numSet] at hx
    exact Or.inl hx
  | cons e es ih =>
    intro x hx
    simp only [numSet] at hx
    by_cases h : e.1 = c
    · rw [if_pos h] at hx
      simp only [List.map_cons, List.mem_cons] at hx
      rcases hx with rfl | hx
      · exact Or.inl rfl
      · exact Or.inr (by simp [hx])
    · rw [if_neg h] at hx
      simp only [List.map_cons, List.mem_cons] at hx
      rcases hx with rfl | hx
      · exact Or.inr (by simp)
      · rcases ih x hx with h1 | h1
        · exact Or.inl h1
        · exact Or.inr (by simp [h1])

theorem numSet_keys_nodup (c : Cell) (n : Nat) :
    ∀ (m : NumMap), (m.map Prod.fst).Nodup → ((numSet m c n).map Prod.fst).Nodup := by
  intro m
  induction m with
  | nil => intro _; simp [numSet]
  | cons e es ih =>
    intro h
    simp only [numSet]
    by_cases he : e.1 = c
    · rw [if_pos he]
      simp only [List.map_cons, List.nodup_cons] at h ⊢
      refine ⟨?_, h.2⟩
      rw [← he]
      exact h.1
    · rw [if_neg he]
      simp only [List.map_cons, List.nodup_cons] at h ⊢
      refine ⟨?_, ih h.2⟩
      intro hmem
      rcases numSet_keys_sub c n es e.1 hmem with h1 | h1
      · exact he h1
      · exact h.1 h1

theorem placeHotLoop_nodup (allT : List Cell) (num : Nat) :
    ∀ (a : Nat) (tiles : List Cell) (m : NumMap) (o : List Nat),
      (m.map Prod.fst).Nodup →
      ((placeHotLoop allT num a tiles m o).1.map Prod.fst).Nodup := by
  intro a
  induction a with
  | zero =>
    intro tiles m o hm
    cases tiles with
    | nil => exact hm
    | cons t rest => exact numSet_keys_nodup t num m hm
  | succ a ih =>
    intro tiles m o hm
    by_cases hlen : tiles.length = 0
    · simp only [placeHotLoop, if_pos hlen]
      exact hm
    · simp only [placeHotLoop, if_neg hlen]
      by_cases hvalid : isValidPlacement allT
          (tiles.getD (o.headD 0 % tiles.length) (0, 0)) num m = true
      · rw [if_pos hvalid]
        exact numSet_keys_nodup _ num m hm
      · rw [if_neg hvalid]
        exact ih tiles m o.tail hm

theorem placeHots_nodup (allT : List Cell) :
    ∀ (ns : List Nat) (m : NumMap) (tiles : List Cell) (o : List Nat),
      (m.map Prod.fst).Nodup →
      ((placeHots allT ns m tiles o).1.map Prod.fst).Nodup := by
  intro ns
  induction ns with
  | nil => intro m tiles o hm; exact hm
  | cons n ns ih =>
    intro m tiles o hm
    simp only [placeHots]
    exact ih _ _ _ (placeHotLoop_nodup allT n 100 tiles m o hm)

theorem foldl_numSet_nodup :
    ∀ (ps : List (Cell × Nat)) (m : NumMap),
      (m.map Prod.fst).Nodup →
      ((ps.foldl (fun acc p => numSet acc p.1 p.2) m).map Prod.fst).Nodup := by
  intro ps
  induction ps with
  | nil => intro m hm; exact hm
  | cons p ps ih =>
    intro m hm
    simp only [List.foldl_cons]
    exact ih _ (numSet_keys_nodup p.1 p.2 m hm)

theorem safetyFill_nodup (dist : List Nat) :
    ∀ (ts : List Cell) (m : NumMap) (o : List Nat),
      (m.map Prod.fst).Nodup →
      ((safetyFill dist ts m o).map Prod.fst).Nodup := by
  intro ts
  induction ts with
  | nil => intro m o hm; exact hm
  | cons t ts ih =>
    intro m o hm
    simp only [safetyFill]
    by_cases hsome : (lookupNum m t).isSome = true
    · rw [if_pos hsome]
      exact ih m o hm
    · rw [if_neg hsome]
      split
      · exact ih _ _ (numSet_keys_nodup t _ m hm)
      · exact ih _ _ (numSet_keys_nodup t _ m hm)

theorem mem_numberTilesOf (b : Board) (c : Cell) :
    c ∈ numberTilesOf b ↔
      ∃ t, (c, t) ∈ b ∧ t ≠ Terrain.desert ∧ t ≠ Terrain.water := by
  unfold numberTilesOf
  rw [List.mem_filterMap]
  constructor
  · rintro ⟨e, he, hcond⟩
    rw [List.mem_reverse] at he
    by_cases h1 : e.2 ≠ Terrain.desert ∧ e.2 ≠ Terrain.water
    · rw [if_pos h1] at hcond
      injection hcond with hc
      refine ⟨e.2, ?_, h1.1, h1.2⟩
      exact hc ▸ (show (e.1, e.2) ∈ b from he)
    · rw [if_neg h1] at hcond
      exact absurd hcond (by simp)
  · rintro ⟨t, hmem, h1, h2⟩
    refine ⟨(c, t), ?_, ?_⟩
    · rw [List.mem_reverse]
      exact hmem
    · rw [if_pos ⟨h1, h2⟩]

theorem assignNumbers_isSome (b : Board) (mapSize : Int) (o : List Nat) (c : Cell) :
    (lookupNum (assignNumbers b mapSize o) c).isSome = true ↔
      c ∈ numberTilesOf b := by
  unfold assignNumbers
  constructor
  · intro h
    refine safetyFill_dom _ (numberTilesOf b) _ _ _ ?_ (fun x hx => hx) c h
    unfold assignOthers
    refine foldl_numSet_dom (numberTilesOf b) _ _ ?_ ?_
    · exact (placeHots_dom (numberTilesOf b) (numberTilesOf b) _ _ _ _
        (fun x hx => by simp [lookupNum] at hx) (fun x hx => hx)).1
    · rintro ⟨pc, pn⟩ hp
      exact (placeHots_dom (numberTilesOf b) (numberTilesOf b) _ _ _ _
        (fun x hx => by simp [lookupNum] at hx) (fun x hx => hx)).2
        ((List.of_mem_zip hp).1)
  · intro h
    exact safetyFill_present _ _ _ _ c h

theorem assignNumbers_keys_nodup (b : Board) (mapSize : Int) (o : List Nat) :
    ((assignNumbers b mapSize o).map Prod.fst).Nodup := by
  unfold assignNumbers
  apply safetyFill_nodup
  unfold assignOthers
  apply foldl_numSet_nodup
  apply placeHots_nodup
  simp

/-- Claim C2: the number-assignment step on the finished board produces a
mapping that is total on exactly the eligible set: a cell holds a number
token exactly when it is occupied with a terrain that is neither desert
nor water (gold included), each such cell holds exactly one token (the
key list of the produced map has no duplicates), and no desert, water or
unoccupied cell receives an entry. -/
theorem claim_c2_number_assignment (b : Board) (mapSize : Int) (o : List Nat) :
    (∀ c : Cell, (lookupNum (assignNumbers b mapSize o) c).isSome = true ↔
        ∃ t, (c, t) ∈ b ∧ t ≠ Terrain.desert ∧ t ≠ Terrain.water) ∧
      ((assignNumbers b mapSize o).map Prod.fst).Nodup := by
  refine ⟨fun c => ?_, assignNumbers_keys_nodup b mapSize o⟩
  rw [assignNumbers_isSome]
  exact mem_numberTilesOf b c
